import Mathlib

/-
  Verification of the company-name suppression / cooldown core of the
  acquisitie-YAG pipeline (src/Python/src/storage.py,
  src/Python/src/recent_contacts.py, src/Python/main.py).

  The Python functions are shallowly embedded: strings are `String`/`List Char`,
  the three regular expressions of `_normalize_company` are embedded as
  executable scanners with Python `re` semantics (leftmost match, alternation
  in order, word boundaries `\b`, greedy `\s*` / `\.?` with backtracking),
  Python sets are lists (membership-equivalent), `datetime` values are a
  calendar record compared via a tick count, and fallible loaders return
  `Except`.  ASCII semantics are used for `str.lower`/`\w` (the repository's
  data is ASCII where these distinctions matter).
-/

namespace Acq

/-- Python `\s` / `str.strip` whitespace (ASCII range): space, tab, LF, VT, FF, CR. -/
def isSpaceChar (c : Char) : Bool :=
  c == ' ' || c == '\t' || c == '\n' || c == '\r' || c == '\x0b' || c == '\x0c'

/-- Lowercase ASCII letter. -/
def isLowerAZ (c : Char) : Bool := decide (97 ≤ c.toNat ∧ c.toNat ≤ 122)

/-- Uppercase ASCII letter. -/
def isUpperAZ (c : Char) : Bool := decide (65 ≤ c.toNat ∧ c.toNat ≤ 90)

/-- ASCII digit. -/
def isDigitC (c : Char) : Bool := decide (48 ≤ c.toNat ∧ c.toNat ≤ 57)

/-- Word character for the regex word boundary `\b`: `[a-zA-Z0-9_]`. -/
def isWordChar (c : Char) : Bool :=
  isLowerAZ c || isUpperAZ c || isDigitC c || c == '_'

/-- Items of the legal-suffix regex of `_normalize_company`
(`storage.py`): a literal character, an optional dot `\.?`, or `\s*`. -/
inductive RItem
  | lit (c : Char)
  | optDot
  | starSpace
deriving DecidableEq

/-- Wordness of the first character of `l` (`false` at the end of the string),
as used by `\b`. -/
def headIsWord (l : List Char) : Bool :=
  match l with
  | [] => false
  | c :: _ => isWordChar c

/-- Is the first character of `l` whitespace? -/
def headIsSpace (l : List Char) : Bool :=
  match l with
  | [] => false
  | c :: _ => isSpaceChar c

/-- Match one alternative of the suffix regex against a prefix of `l`.
`lw` is the wordness of the last consumed character (used by the trailing
`\b`); the result is the wordness of the last consumed character and the
remaining suffix.  Backtracking order follows Python `re`: `\.?` prefers
consuming the dot (`orElse` falls back), and `\s*` immediately followed by a
literal letter can only succeed consuming the maximal whitespace run, so it
does so directly.  The trailing `\b` of the pattern is checked in the `[]`
case: it holds iff the wordness of the last consumed character differs from
the wordness of the next character.
-/
def matchItems : List RItem → Bool → List Char → Option (Bool × List Char)
  | [], lw, l => if lw != headIsWord l then some (lw, l) else none
  | .lit c :: rest, _, l =>
    match l with
    | x :: t => if x == c then matchItems rest (isWordChar x) t else none
    | [] => none
  | .optDot :: rest, lw, l =>
    match l with
    | x :: t =>
      if x == '.' then (matchItems rest false t).orElse (fun _ => matchItems rest lw (x :: t))
      else matchItems rest lw (x :: t)
    | [] => matchItems rest lw []
  | .starSpace :: rest, lw, l =>
    matchItems rest (if headIsSpace l then false else lw) (l.dropWhile isSpaceChar)

/-- The alternatives of
`\b(b\.?\s*v\.?|n\.?\s*v\.?|v\.?\s*o\.?\s*f\.?|ltd\.?|gmbh|inc\.?|llc|bv|nv|vof)\b`,
in the order Python `re` tries them. -/
def suffixAlts : List (List RItem) :=
  [ [.lit 'b', .optDot, .starSpace, .lit 'v', .optDot],
    [.lit 'n', .optDot, .starSpace, .lit 'v', .optDot],
    [.lit 'v', .optDot, .starSpace, .lit 'o', .optDot, .starSpace, .lit 'f', .optDot],
    [.lit 'l', .lit 't', .lit 'd', .optDot],
    [.lit 'g', .lit 'm', .lit 'b', .lit 'h'],
    [.lit 'i', .lit 'n', .lit 'c', .optDot],
    [.lit 'l', .lit 'l', .lit 'c'],
    [.lit 'b', .lit 'v'],
    [.lit 'n', .lit 'v'],
    [.lit 'v', .lit 'o', .lit 'f'] ]

/-- Try the alternatives at the current position, in order. -/
def tryAlts (l : List Char) : Option (Bool × List Char) :=
  suffixAlts.foldr (fun alt acc => (matchItems alt false l).orElse (fun _ => acc)) none

/-- The `re.sub(suffix-pattern, '', name)` scanner: walk the string left to right;
at a position whose preceding character is not a word character (the leading
`\b`; every alternative starts with a letter, so `\b` there is equivalent to
the previous character not being a word character), try the alternatives and
drop the matched span, continuing after it.  `pw` is the wordness of the
previous character (`false` at the start).  `fuel` bounds the recursion;
`l.length` always suffices since every match consumes at least one character.
-/
def stripGo : Nat → Bool → List Char → List Char
  | 0, _, _ => []
  | _ + 1, _, [] => []
  | fuel + 1, pw, c :: t =>
    if pw then c :: stripGo fuel (isWordChar c) t
    else
      match tryAlts (c :: t) with
      | some (lw, rem) => stripGo fuel lw rem
      | none => c :: stripGo fuel (isWordChar c) t

/-- Removal of legal-entity suffixes (first `re.sub` of `_normalize_company`). -/
def stripSuffL (l : List Char) : List Char := stripGo l.length false l

/-- The literal letters occurring in the suffix-regex alternatives. -/
def isAltLetter (c : Char) : Bool :=
  c == 'b' || c == 'v' || c == 'n' || c == 'o' || c == 'f' || c == 'l' ||
  c == 't' || c == 'd' || c == 'g' || c == 'm' || c == 'h' || c == 'i' || c == 'c'

/-- A tail is inert when, after leading whitespace, it starts with a
character no suffix-regex item can consume and that is not a word
character — so no match can extend into it and `\b` sees it as a
non-word boundary.  Separator-headed and whitespace-only tails are inert. -/
def inertTail (tail : List Char) : Bool :=
  match tail.dropWhile isSpaceChar with
  | [] => true
  | b :: _ => !isAltLetter b && b != '.' && !isWordChar b

/-- Well-formedness of a suffix-regex alternative: literals are alternative
letters and every `\s*` is immediately followed by a literal. -/
def altOK : List RItem → Bool
  | [] => true
  | .lit c :: rest => isAltLetter c && altOK rest
  | .optDot :: rest => altOK rest
  | .starSpace :: .lit c :: rest => isAltLetter c && altOK rest
  | .starSpace :: _ => false

/-- Does the item list start with a literal? -/
def headLit : List RItem → Bool
  | .lit _ :: _ => true
  | _ => false

/-- Does the list contain an ASCII lowercase letter or digit? -/
def anyAlnum (l : List Char) : Bool := l.any (fun c => isLowerAZ c || isDigitC c)

/-- Characters kept by `re.sub(r'[^a-z0-9\s]', ' ', name)`. -/
def punctKeep (c : Char) : Bool := isLowerAZ c || isDigitC c || isSpaceChar c

/-- Second `re.sub` of `_normalize_company`: every character that is not a
lowercase letter, digit or whitespace becomes a space. -/
def punctL (l : List Char) : List Char := l.map (fun c => if punctKeep c then c else ' ')

/-- Python `re.sub(r'\s+', ' ', name)`: collapse every run of whitespace to one space.
`prevSp` records whether the previous character was part of a whitespace run. -/
def squashGo : Bool → List Char → List Char
  | _, [] => []
  | prevSp, c :: t =>
    if isSpaceChar c then
      if prevSp then squashGo true t else ' ' :: squashGo true t
    else c :: squashGo false t

/-- Drop leading whitespace. -/
def trimLeft (l : List Char) : List Char := l.dropWhile isSpaceChar

/-- Drop trailing whitespace. -/
def trimRight (l : List Char) : List Char := (l.reverse.dropWhile isSpaceChar).reverse

/-- Python `str.strip()`. -/
def trimBoth (l : List Char) : List Char := trimRight (trimLeft l)

/-- Python `re.sub(r'\s+', ' ', name).strip()`. -/
def collapseL (l : List Char) : List Char := trimBoth (squashGo false l)

/-- The first character, if any, is not whitespace. -/
def headNotSp (l : List Char) : Bool := !headIsSpace l

/-- No two adjacent whitespace characters. -/
def noTwoSp : List Char → Bool
  | [] => true
  | [_] => true
  | a :: b :: t => !(isSpaceChar a && isSpaceChar b) && noTwoSp (b :: t)

/-- Python `str.lower()` on one character (ASCII). -/
def pyLower (c : Char) : Char :=
  if 65 ≤ c.toNat ∧ c.toNat ≤ 90 then Char.ofNat (c.toNat + 32) else c

/-- Python `str.lower()` (ASCII). -/
def lowerL (l : List Char) : List Char := l.map pyLower

/-- The function `_normalize_company` (storage.py): lowercase, remove legal-entity
suffixes, replace punctuation by spaces, collapse whitespace, trim. -/
def normalizeL (l : List Char) : List Char := collapseL (punctL (stripSuffL (lowerL l)))

/-- The function `_normalize_company` on `String`. -/
def normalize_company (s : String) : String := ⟨normalizeL s.data⟩

/-- Whether `n` is a prefix of `h`. -/
def isPrefixL : List Char → List Char → Bool
  | [], _ => true
  | _ :: _, [] => false
  | a :: xs, b :: ys => a == b && isPrefixL xs ys

/-- Python substring test `needle in hay` (`True` for the empty needle). -/
def isSubL (needle : List Char) : List Char → Bool
  | [] => isPrefixL needle []
  | c :: t => isPrefixL needle (c :: t) || isSubL needle t

/-- Python `str.split(sep)` for a non-empty separator: leftmost,
non-overlapping.  `acc` holds the current part reversed; `fuel` bounds the
recursion (`l.length` suffices). -/
def splitGo : Nat → List Char → List Char → List Char → List (List Char)
  | _, _, [], acc => [acc.reverse]
  | 0, _, l, acc => [acc.reverse ++ l]
  | fuel + 1, sep, c :: t, acc =>
    if isPrefixL sep (c :: t) && !sep.isEmpty then
      acc.reverse :: splitGo fuel sep ((c :: t).drop sep.length) []
    else
      splitGo fuel sep t (c :: acc)

/-- Python `str.split(sep)`. -/
def splitOnL (sep l : List Char) : List (List Char) := splitGo l.length sep l []

/-- Python `str.strip()` on `String`. -/
def trimStr (s : String) : String := ⟨trimBoth s.data⟩

/-- Python `str.lower()` on `String` (ASCII). -/
def lowerStr (s : String) : String := ⟨lowerL s.data⟩

/-- The separators `_extract_variants` splits on, in order. -/
def SEPS : List (List Char) := [[';'], ['|'], [' ', '-', ' '], [',']]

/-- The function `_extract_variants` (storage.py): the whole-string normalization plus, for
each separator occurring in the raw string, the normalization of each
stripped part when it has at least 3 characters; empty strings are filtered
out.  A list stands in for the Python set (membership-equivalent). -/
def extract_variants (raw : String) : List String :=
  let base : List String := [normalize_company raw]
  let withParts := SEPS.foldl (fun acc sep =>
    if isSubL sep raw.data then
      acc ++ ((splitOnL sep raw.data).map
        (fun part => normalize_company (trimStr ⟨part⟩))).filter
          (fun n => decide (3 ≤ n.length))
    else acc) base
  withParts.filter (fun v => !(v == ""))

/-- The stop-word set `_STOPWORDS` of storage.py. -/
def STOPWORDS : List String :=
  ["groep", "group", "inter", "global", "solutions", "services",
   "management", "consulting", "holding", "international", "nederland",
   "netherlands", "europe", "digital", "partners", "innovations",
   "systems", "logistics", "supply", "chain", "media", "tech"]

/-- The test `not company or not company.strip()` of `is_do_not_contact`. -/
def isBlankStr (s : String) : Bool := s.data.isEmpty || (trimBoth s.data).isEmpty

/-- The function `is_do_not_contact` (storage.py): exact pass over the lead's variants,
then substring pass over the registry entries of length ≥ 8 that are not
stop words.  The registry set is modeled as a list. -/
def is_do_not_contact (company : String) (dnc_set : List String) : Bool × String :=
  if isBlankStr company then (false, "")
  else
    match (extract_variants company).find? (fun v => decide (v ∈ dnc_set)) with
    | some v => (true, v)
    | none =>
      let normLead := normalize_company company
      match dnc_set.find? (fun e =>
          decide (8 ≤ e.length) && decide (e ∉ STOPWORDS) &&
          (isSubL e.data normLead.data || isSubL normLead.data e.data)) with
      | some e => (true, e)
      | none => (false, "")

/-! ### Datetime model (Python `datetime`) -/

/-- A Python `datetime`: proleptic-Gregorian calendar date plus the time of
day in microseconds. -/
structure DTime where
  year : Nat
  month : Nat
  day : Nat
  tod : Nat
deriving DecidableEq

/-- Gregorian leap year (as used by Python's `datetime`). -/
def isLeap (y : Nat) : Bool := y % 4 == 0 && (y % 100 != 0 || y % 400 == 0)

/-- Days in a month. -/
def daysInMonth (y m : Nat) : Nat :=
  if m == 2 then (if isLeap y then 29 else 28)
  else if m == 4 || m == 6 || m == 9 || m == 11 then 30
  else 31

/-- A representable Python `datetime` value (year 1..9999, valid calendar
date, time of day under 24h in microseconds). -/
def ValidDT (d : DTime) : Prop :=
  1 ≤ d.year ∧ d.year ≤ 9999 ∧ 1 ≤ d.month ∧ d.month ≤ 12 ∧
  1 ≤ d.day ∧ d.day ≤ daysInMonth d.year d.month ∧ d.tod < 86400000000

instance (d : DTime) : Decidable (ValidDT d) := by unfold ValidDT; infer_instance

/-- Days in the months strictly before month `m` of year `y`. -/
def daysBeforeMonth (y m : Nat) : Nat :=
  (List.range (m - 1)).foldl (fun a i => a + daysInMonth y (i + 1)) 0

/-- Python `date.toordinal`: 0001-01-01 is day 1. -/
def toOrdinal (d : DTime) : Int :=
  365 * ((d.year : Int) - 1) + ((d.year : Int) - 1) / 4 - ((d.year : Int) - 1) / 100
    + ((d.year : Int) - 1) / 400 + (daysBeforeMonth d.year d.month : Int) + (d.day : Int)

/-- Microseconds per day. -/
def USPERDAY : Int := 86400000000

/-- A `datetime` as a microsecond count; `datetime` comparison and
subtraction (`timedelta`) are comparison and subtraction of these ticks. -/
def toTicks (d : DTime) : Int := toOrdinal d * USPERDAY + (d.tod : Int)

/-- Python `datetime` comparison `a <= b`. -/
def dtLe (a b : DTime) : Bool := decide (toTicks a ≤ toTicks b)

/-- The difference `a - b` as a `timedelta` in microseconds. -/
def subTicks (a b : DTime) : Int := toTicks a - toTicks b

/-- Python `datetime.replace(month=nm, day=nd)`: validates the new fields and
returns the updated value, or `none` for the `ValueError` case. -/
def pyReplaceDM (d : DTime) (nm nd : Nat) : Option DTime :=
  if 1 ≤ nm ∧ nm ≤ 12 ∧ 1 ≤ nd ∧ nd ≤ daysInMonth d.year nm then
    some { d with month := nm, day := nd }
  else none

/-- The function `_fix_date` (recent_contacts.py): repair day/month-swapped future dates.
`datum.replace(day=datum.month, month=datum.day)` is attempted only when the
date is in the future and its day is at most 12; a `ValueError` from
`replace` keeps the original date. -/
def fix_date (datum now : DTime) : DTime :=
  if dtLe datum now then datum
  else if datum.day ≤ 12 then
    match pyReplaceDM datum datum.day datum.month with
    | some swapped => if dtLe swapped now then swapped else datum
    | none => datum
  else datum

/-! ### Cooldown ledger (recent_contacts.py) -/

/-- The light-contact type set `_LIGHT_CONTACT_TYPES`. -/
def LIGHT_TYPES : List String := ["gemaild", "gebeld", "gemailed"]

/-- The 90-day cooldown for light contact, in microseconds. -/
def COOLDOWN_LIGHT : Int := 90 * USPERDAY

/-- The 365-day cooldown for heavy contact, in microseconds. -/
def COOLDOWN_HEAVY : Int := 365 * USPERDAY

/-- After `\s*\(`, scan `.*?\)`: find the first `)` without crossing a
newline (`.` does not match `\n`); returns the rest after the `)`. -/
def closeParen : List Char → Option (List Char)
  | [] => none
  | c :: t => if c == ')' then some t else if c == '\n' then none else closeParen t

/-- One match of `\s*\(.*?\)` at the current position. The greedy `\s*` must
reach the `(` exactly at the end of the whitespace run, so no backtracking
arises. -/
def parenAt (l : List Char) : Option (List Char) :=
  match l.dropWhile isSpaceChar with
  | '(' :: t => closeParen t
  | _ => none

/-- Python `re.sub(r"\s*\(.*?\)", "", part)`: remove every parenthetical
annotation (with leading whitespace). -/
def parenGo : Nat → List Char → List Char
  | 0, _ => []
  | _ + 1, [] => []
  | fuel + 1, c :: t =>
    match parenAt (c :: t) with
    | some rest => parenGo fuel rest
    | none => c :: parenGo fuel t

/-- Python `re.sub(r"\s*\(.*?\)", "", l)`. -/
def parenSub (l : List Char) : List Char := parenGo l.length l

/-- The function `_normalize_type` (recent_contacts.py): split the raw label on `;`,
remove parenthetical annotations, strip and lowercase each part, and keep
the parts that are non-empty and differ from the error token `"#ref!"`.
A list stands in for the Python set (membership-equivalent). -/
def normalize_type (raw : String) : List String :=
  (((splitOnL [';'] raw.data).map (fun part => lowerL (trimBoth (parenSub part)))).filter
    (fun clean => !clean.isEmpty && !(clean == "#ref!".data))).map (fun l => (⟨l⟩ : String))

/-- The function `_is_light_contact`: the type set is non-empty and a subset of the
light-contact types. -/
def is_light_contact (types : List String) : Bool :=
  !types.isEmpty && types.all (fun t => decide (t ∈ LIGHT_TYPES))

/-- Zero-padded two-digit field of `strftime`. -/
def pad2 (n : Nat) : String := if n < 10 then "0" ++ toString n else toString n

/-- Python `datum.strftime("%d-%m-%Y")` (years in the data have four digits). -/
def strftimeDMY (d : DTime) : String :=
  pad2 d.day ++ "-" ++ pad2 d.month ++ "-" ++ toString d.year

/-- The per-company contact history: Python's
`dict[str, list[tuple[datetime, str]]]` as an association list in insertion
order (keys unique). -/
abbrev RCDict := List (String × List (DTime × String))

/-- The cooldown window for a raw type label. -/
def cooldownFor (typeRaw : String) : Int :=
  if is_light_contact (normalize_type typeRaw) then COOLDOWN_LIGHT else COOLDOWN_HEAVY

/-- The rows `is_recent_contact` considers for a company: the direct
(lowercased, stripped) key lookup, or else the fuzzy substring fallback over
all stored keys (for keys of length at least 4). -/
def matchedEvents (company : String) (contacts : RCDict) : List (DTime × String) :=
  let key := lowerStr (trimStr company)
  match contacts.lookup key with
  | some rows => rows
  | none =>
    contacts.foldl (fun acc kv =>
      if decide (4 ≤ key.length) && (isSubL key.data kv.1.data || isSubL kv.1.data key.data)
      then acc ++ kv.2 else acc) []

/-- The function `is_recent_contact` (recent_contacts.py): the first matched event whose
age is under its cooldown window blocks the company, with a human-readable
reason. -/
def is_recent_contact (company : String) (contacts : RCDict) (now : DTime) :
    Bool × String :=
  match (matchedEvents company contacts).find?
      (fun ev => decide (subTicks now ev.1 < cooldownFor ev.2)) with
  | some ev =>
    let light := is_light_contact (normalize_type ev.2)
    let cooldown := if light then COOLDOWN_LIGHT else COOLDOWN_HEAVY
    let contactLabel := if light then "gemaild/gebeld" else "zwaarder contact"
    let daysRemaining := Int.fdiv (toTicks ev.1 + cooldown - toTicks now) USPERDAY
    (true, contactLabel ++ " op " ++ strftimeDMY ev.1 ++ " (" ++
      (if light then "3 mnd" else "1 jaar") ++ " cooldown, nog " ++
      toString daysRemaining ++ " dag(en))")
  | none => (false, "")

/-! ### Loaders (storage.py / recent_contacts.py) -/

/-- Error cases of `load_do_not_contact`. -/
inductive DncError
  | fileNotFound
  | noColumns
  | missingColumn
deriving DecidableEq

/-- A loaded tabular DNC source: whether the path ends in `.csv`, the column
names, and the non-null cells of each column as strings (pandas `dropna`
and `str` applied). -/
structure DncTable where
  isCsv : Bool
  columns : List String
  cell : String → List String

/-- The function `load_do_not_contact` (storage.py): the filesystem is abstracted to an
`Option DncTable` (`none` = the path does not exist, giving
`FileNotFoundError`).  For a CSV, the company column is `Bedrijf` when
present and otherwise the first column (`df.columns[0]`, an error on a
column-less table); for Excel it is always `Bedrijf`.  A missing chosen
column raises `ValueError`.  The registry is the union of the extracted
variants of every cell. -/
def load_do_not_contact (file : Option DncTable) : Except DncError (List String) :=
  match file with
  | none => .error .fileNotFound
  | some t =>
    let colChoice : Option String :=
      if t.isCsv then (if "Bedrijf" ∈ t.columns then some "Bedrijf" else t.columns.head?)
      else some "Bedrijf"
    match colChoice with
    | none => .error .noColumns
    | some col =>
      if col ∈ t.columns then
        .ok ((t.cell col).foldl (fun acc raw => acc ++ extract_variants raw) [])
      else .error .missingColumn

/-- Error cases of `load_recent_contacts`. -/
inductive RCError
  | importError
  | fileNotFound
deriving DecidableEq

/-- A cell of the contacts workbook: empty, a string, a datetime, or some
other (truthy) value carrying its `str()` rendering. -/
inductive Cell
  | blank
  | text (s : String)
  | date (d : DTime)
  | other (pystr : String)
deriving DecidableEq

/-- Python truthiness of a loaded cell (`not row[i]`). -/
def Cell.truthy : Cell → Bool
  | .blank => false
  | .text s => !s.isEmpty
  | .date _ => true
  | .other _ => true

/-- Python `str()` of a loaded cell. -/
def Cell.pyStr : Cell → String
  | .blank => ""
  | .text s => s
  | .date d => strftimeDMY d
  | .other s => s

/-- A field of a strptime date format. -/
inductive FField | day | month | year
deriving DecidableEq, BEq

/-- The numeric value of a digit group. -/
def natOfDigits (l : List Char) : Nat :=
  l.foldl (fun a c => a * 10 + (c.toNat - '0'.toNat)) 0

/-- One strptime field: `%d` is 1-2 digits in 1..31, `%m` is 1-2 digits in
1..12, `%Y` is exactly 4 digits (CPython's `_strptime` patterns). -/
def parseField (f : FField) (g : List Char) : Option Nat :=
  if g.all Char.isDigit && !g.isEmpty then
    let v := natOfDigits g
    match f with
    | .day => if g.length ≤ 2 ∧ 1 ≤ v ∧ v ≤ 31 then some v else none
    | .month => if g.length ≤ 2 ∧ 1 ≤ v ∧ v ≤ 12 then some v else none
    | .year => if g.length = 4 then some v else none
  else none

/-- Python `datetime.strptime(s, fmt)` for a three-field format with a single
separator character: the string must split into exactly three valid groups,
and the resulting calendar date must exist. -/
def tryFormat (f1 f2 f3 : FField) (sep : Char) (s : List Char) : Option DTime :=
  match splitOnL [sep] s with
  | [g1, g2, g3] => do
    let v1 ← parseField f1 g1
    let v2 ← parseField f2 g2
    let v3 ← parseField f3 g3
    let fields := [(f1, v1), (f2, v2), (f3, v3)]
    let y ← (fields.find? (fun p => p.1 == FField.year)).map (·.2)
    let m ← (fields.find? (fun p => p.1 == FField.month)).map (·.2)
    let d ← (fields.find? (fun p => p.1 == FField.day)).map (·.2)
    if ValidDT ⟨y, m, d, 0⟩ then some ⟨y, m, d, 0⟩ else none
  | _ => none

/-- The text formats `load_recent_contacts` tries, in order:
`%d-%m-%Y`, `%m-%d-%Y`, `%d/%m/%Y`, `%m/%d/%Y`, `%Y-%m-%d`. -/
def parseTextDate (s : String) : Option DTime :=
  let t := trimBoth s.data
  (tryFormat .day .month .year '-' t).orElse fun _ =>
  (tryFormat .month .day .year '-' t).orElse fun _ =>
  (tryFormat .day .month .year '/' t).orElse fun _ =>
  (tryFormat .month .day .year '/' t).orElse fun _ =>
  tryFormat .year .month .day '-' t

/-- Python `dict.setdefault(key, []).append(v)` on an insertion-ordered
association list. -/
def upsert (acc : RCDict) (key : String) (v : DTime × String) : RCDict :=
  match acc with
  | [] => [(key, [v])]
  | (k, rows) :: t =>
    if k == key then (k, rows ++ [v]) :: t else (k, rows) :: upsert t key v

/-- The function `load_recent_contacts` (recent_contacts.py): `ImportError` when openpyxl
is unavailable, `FileNotFoundError` when the path does not exist; otherwise
rows with a truthy company, date and type are kept, string dates are parsed
with the text formats (unparseable rows are skipped), dates are repaired
with `_fix_date` relative to `now` (load time), and rows are grouped by the
lowercased, stripped company name. -/
def load_recent_contacts (openpyxlAvailable : Bool)
    (file : Option (List (Cell × Cell × Cell))) (now : DTime) :
    Except RCError RCDict :=
  if !openpyxlAvailable then .error .importError
  else
    match file with
    | none => .error .fileNotFound
    | some rows =>
      .ok (rows.foldl (fun acc row =>
        if !row.1.truthy || !row.2.1.truthy || !row.2.2.truthy then acc
        else
          let parsed : Option DTime :=
            match row.2.1 with
            | .text s => parseTextDate s
            | .date d => some d
            | _ => none
          match parsed with
          | none => acc
          | some d =>
            let d := fix_date d now
            let key := lowerStr (trimStr row.1.pyStr)
            if key.isEmpty then acc
            else upsert acc key (d, row.2.2.pyStr)) [])

/-! ### The mail-step lead gate (main.py, `step_send_mail`) -/

/-- The outcome of the per-lead checks of `step_send_mail`. -/
inductive MailOutcome
  | dnc
  | suppressedEmail
  | contactedCompany
  | sendable
deriving DecidableEq

/-- Ingestion of a company cell by `get_all_rows` (sheets.py:107): the raw
cell value is stripped before any later code sees it. -/
def ingest_company (c : String) : String := trimStr c

/-- Ingestion of an email cell by `get_all_rows` (sheets.py:113): the raw
cell value is stripped and lowercased before any later code sees it, so every
email that `step_send_mail` or `load_suppressed_emails` handles is already in
lowercase normal form. -/
def ingest_email (e : String) : String := lowerStr (trimStr e)

/-- The function `load_suppressed_emails` (sheets.py:426-442): reading through
`get_all_rows`, it collects `row[Col.EMAIL].strip().lower()` for every row
whose (stripped) mail status is `✅ SENT` and whose ingested email is truthy.
Rows are `(emailCell, mailStatusCell)` pairs of raw sheet cells. -/
def load_suppressed_emails (rows : List (String × String)) : List String :=
  (rows.filter (fun r =>
      trimStr r.2 == "✅ SENT" && !(ingest_email r.1).isEmpty)).map
    (fun r => lowerStr (trimStr (ingest_email r.1)))

/-- The per-lead gate of `step_send_mail` (main.py:625-644) as it acts on the
raw sheet cells: `get_rows_for_mail` (sheets.py:175) builds its rows from
`get_all_rows`, which strips the company cell and strips-and-lowercases the
email cell at ingestion; the gate then checks, in order,
`is_do_not_contact(company, dnc_set)`, `email in suppressed`, and
`company.lower() in contacted_companies`, and the first match wins. -/
def classify_lead (company email : String)
    (dnc_set suppressed contacted : List String) : MailOutcome :=
  if (is_do_not_contact (ingest_company company) dnc_set).1 then .dnc
  else if ingest_email email ∈ suppressed then .suppressedEmail
  else if lowerStr (ingest_company company) ∈ contacted then .contactedCompany
  else .sendable

/-- The day/month-swapped date of the spec's date-repair description. -/
def swapDM (d : DTime) : DTime := ⟨d.year, d.day, d.month, d.tod⟩

/-- A concrete CSV DNC table without the expected `Bedrijf` column. -/
def csvNoBedrijf : DncTable :=
  ⟨true, ["Company"], fun c => if c = "Company" then ["Acme"] else []⟩

/-! ### Sanity checks: concrete evaluations of the embedded functions -/

example : normalize_company "Acme B.V." = "acme" := by decide

example : normalize_company "Sanbio B.V." = "sanbio" := by decide

example : normalize_company "b#v" = "b v" := by decide

example : normalize_company "b v" = "" := by decide

example : normalize_company "b .v" = "b v" := by decide

example : normalize_company "inc.x" = "x" := by decide

example : normalize_company "xbv" = "xbv" := by decide

example : normalize_company "Nabuurs - supply chain solutions" = "nabuurs supply chain solutions" := by decide

example : extract_variants "Melkweg|Fritom" = ["melkweg fritom", "melkweg", "fritom"] := by decide

example : extract_variants "..." = [] := by decide

example : extract_variants "B.V." = [] := by decide

example : extract_variants "Acme B.V." = ["acme"] := by decide

example : is_do_not_contact "Acme B.V." ["acme"] = (true, "acme") := by decide

example : is_do_not_contact "Melkweg|Fritom" ["fritom"] = (true, "fritom") := by decide

example : is_do_not_contact "Some Logistics Company" ["logistics"] = (false, "") := by decide

example : is_do_not_contact "B.V." ["abcdefgh"] = (true, "abcdefgh") := by decide

example : is_do_not_contact "   " ["abcdefgh"] = (false, "") := by decide

example : toOrdinal ⟨1, 1, 1, 0⟩ = 1 := by decide

example : toOrdinal ⟨2020, 3, 1, 0⟩ - toOrdinal ⟨2020, 2, 28, 0⟩ = 2 := by decide

example : toOrdinal ⟨2021, 3, 1, 0⟩ - toOrdinal ⟨2021, 2, 28, 0⟩ = 1 := by decide

example : fix_date ⟨2026, 6, 2, 0⟩ ⟨2026, 3, 1, 0⟩ = ⟨2026, 2, 6, 0⟩ := by decide

example : fix_date ⟨2026, 6, 2, 0⟩ ⟨2026, 7, 1, 0⟩ = ⟨2026, 6, 2, 0⟩ := by decide

example : normalize_type "Gemaild (2); Gebeld" = ["gemaild", "gebeld"] := by decide

example : is_light_contact (normalize_type "Gemaild (2); Gebeld") = true := by decide

example : is_light_contact (normalize_type "Gemaild (2); Gesprek") = false := by decide

example : is_light_contact (normalize_type "#REF!") = false := by decide

example :
    is_recent_contact "Acme" [("acme", [(⟨2026, 2, 6, 0⟩, "Gemaild")])] ⟨2026, 4, 6, 0⟩
      = (true, "gemaild/gebeld op 06-02-2026 (3 mnd cooldown, nog 31 dag(en))") := by decide

example :
    is_recent_contact "Acme" [("acme", [(⟨2025, 2, 6, 0⟩, "Gebeld")])] ⟨2026, 4, 6, 0⟩
      = (false, "") := by decide

example :
    is_recent_contact "Acme" [("acme", [(⟨2026, 1, 6, 0⟩, "Gesprek")])] ⟨2026, 4, 16, 0⟩
      = (true, "zwaarder contact op 06-01-2026 (1 jaar cooldown, nog 265 dag(en))") := by decide

example :
    load_suppressed_emails
        [(" Jan.Jansen@FreshFoods.nl ", "✅ SENT"), ("a@b.nl", "🔴 DRY RUN")]
      = ["jan.jansen@freshfoods.nl"] := by decide

example :
    classify_lead "Fresh Foods" "Jan.Jansen@FreshFoods.nl" []
        (load_suppressed_emails [("Jan.Jansen@FreshFoods.nl", "✅ SENT")]) []
      = MailOutcome.suppressedEmail := by decide

example :
    classify_lead "Acme B.V." "x@acme.nl" ["acme"] [] ["acme b.v."]
      = MailOutcome.dnc := by decide

/-! ### Helper lemmas -/

/-- Python `replace` with the day and month swapped succeeds exactly when
the swapped date is a representable datetime, given that `d` itself is. -/
theorem pyReplaceDM_swap (d : DTime) (hv : ValidDT d) :
    pyReplaceDM d d.day d.month =
      if ValidDT (swapDM d) then some (swapDM d) else none := by
  obtain ⟨h1, h2, h3, h4, h5, h6, h7⟩ := hv
  unfold pyReplaceDM ValidDT swapDM
  split
  · rename_i h
    rw [if_pos]
    exact ⟨h1, h2, h.1, h.2.1, h.2.2.1, h.2.2.2, h7⟩
  · rename_i h
    rw [if_neg]
    intro hc
    exact h ⟨hc.2.2.1, hc.2.2.2.1, hc.2.2.2.2.1, hc.2.2.2.2.2.1⟩

/-! ### Claim C5 — the date-repair step -/

/-- C5: the date-repair step returns `d` unchanged when `d ≤ now`; when `d`
is in the future, its day-of-month is at most 12, and the day/month-swapped
date is a valid date that is at most `now`, it returns the swapped date; in
every other case (swap invalid, or swapped date still in the future, or
day-of-month above 12) it returns `d` unchanged. -/
theorem fix_date_spec (d now : DTime) (hv : ValidDT d) :
    (dtLe d now = true → fix_date d now = d) ∧
    (dtLe d now = false → d.day ≤ 12 → ValidDT (swapDM d) →
      dtLe (swapDM d) now = true → fix_date d now = swapDM d) ∧
    (dtLe d now = false →
      (¬d.day ≤ 12 ∨ ¬ValidDT (swapDM d) ∨ dtLe (swapDM d) now = false) →
      fix_date d now = d) := by
  refine ⟨?_, ?_, ?_⟩
  · intro hle
    unfold fix_date
    rw [hle]
    rfl
  · intro hle hday hswap hsle
    unfold fix_date
    rw [hle, if_neg (by simp), if_pos hday, pyReplaceDM_swap d hv, if_pos hswap]
    simp [hsle]
  · intro hle hother
    unfold fix_date
    rw [hle, if_neg (by simp)]
    rcases hother with h | h | h
    · rw [if_neg h]
    · rw [pyReplaceDM_swap d hv, if_neg h]
      split <;> rfl
    · rw [pyReplaceDM_swap d hv]
      by_cases hvd : ValidDT (swapDM d)
      · rw [if_pos hvd]
        simp [h]
      · rw [if_neg hvd]
        split <;> rfl

/-- Witness for C5 at a concrete repairable date: 2026-06-02 (stored
month/day-swapped) seen at load time 2026-03-01 is repaired to 2026-02-06. -/
theorem fix_date_spec_witness :
    ValidDT ⟨2026, 6, 2, 0⟩ ∧ fix_date ⟨2026, 6, 2, 0⟩ ⟨2026, 3, 1, 0⟩ = ⟨2026, 2, 6, 0⟩ :=
  ⟨by decide,
   (fix_date_spec ⟨2026, 6, 2, 0⟩ ⟨2026, 3, 1, 0⟩ (by decide)).2.1
     (by decide) (by decide) (by decide) (by decide)⟩

/-! ### Structure of normalized output -/

theorem mem_squashGo {c : Char} :
    ∀ (l : List Char) (b : Bool), c ∈ squashGo b l →
      (c ∈ l ∧ isSpaceChar c = false) ∨ c = ' ' := by
  intro l
  induction l with
  | nil => intro b h; simp [squashGo] at h
  | cons a t ih =>
    intro b h
    unfold squashGo at h
    by_cases ha : isSpaceChar a
    · rw [if_pos ha] at h
      cases b with
      | true =>
        rcases ih true (by simpa using h) with ⟨h1, h2⟩ | h1
        · exact Or.inl ⟨List.mem_cons_of_mem a h1, h2⟩
        · exact Or.inr h1
      | false =>
        simp only [Bool.false_eq_true, if_false] at h
        rcases List.mem_cons.mp h with h1 | h1
        · exact Or.inr h1
        · rcases ih true h1 with ⟨h2, h3⟩ | h2
          · exact Or.inl ⟨List.mem_cons_of_mem a h2, h3⟩
          · exact Or.inr h2
    · rw [if_neg ha] at h
      rcases List.mem_cons.mp h with h1 | h1
      · refine Or.inl ⟨?_, ?_⟩
        · rw [h1]
          exact List.mem_cons_self _ _
        · rw [h1]
          simpa using ha
      · rcases ih false h1 with ⟨h2, h3⟩ | h2
        · exact Or.inl ⟨List.mem_cons_of_mem a h2, h3⟩
        · exact Or.inr h2

theorem trimRight_prefixOf (l : List Char) : trimRight l <+: l := by
  have h := List.reverse_prefix.mpr (List.dropWhile_suffix (p := isSpaceChar) (l := l.reverse))
  rwa [List.reverse_reverse] at h

theorem mem_trimBoth {c : Char} {l : List Char} (h : c ∈ trimBoth l) : c ∈ l :=
  (List.dropWhile_suffix isSpaceChar).subset ((trimRight_prefixOf (trimLeft l)).subset h)

theorem mem_collapseL {c : Char} {l : List Char} (h : c ∈ collapseL l) :
    (c ∈ l ∧ isSpaceChar c = false) ∨ c = ' ' :=
  mem_squashGo l false (mem_trimBoth h)

theorem mem_punctL {c : Char} {l : List Char} (h : c ∈ punctL l) : punctKeep c = true := by
  unfold punctL at h
  rcases List.mem_map.mp h with ⟨x, _, hfx⟩
  by_cases hk : punctKeep x
  · rw [if_pos hk] at hfx
    rwa [← hfx]
  · rw [if_neg hk] at hfx
    rw [← hfx]
    decide

theorem mem_normalizeL {c : Char} {l : List Char} (h : c ∈ normalizeL l) :
    isLowerAZ c = true ∨ isDigitC c = true ∨ c = ' ' := by
  unfold normalizeL at h
  rcases mem_collapseL h with ⟨h1, h2⟩ | h1
  · have hk := mem_punctL h1
    unfold punctKeep at hk
    simp only [h2, Bool.or_false, Bool.or_eq_true] at hk
    rcases hk with hk | hk
    · exact Or.inl hk
    · exact Or.inr (Or.inl hk)
  · exact Or.inr (Or.inr h1)

theorem pyLower_eq_self {c : Char}
    (h : isLowerAZ c = true ∨ isDigitC c = true ∨ c = ' ') : pyLower c = c := by
  unfold pyLower
  rcases h with h | h | h
  · rw [if_neg]
    unfold isLowerAZ at h
    simp at h
    omega
  · rw [if_neg]
    unfold isDigitC at h
    simp at h
    omega
  · subst h
    decide

theorem lowerL_fix : ∀ l : List Char,
    (∀ c ∈ l, isLowerAZ c = true ∨ isDigitC c = true ∨ c = ' ') → lowerL l = l := by
  intro l
  induction l with
  | nil => intro _; rfl
  | cons a t ih =>
    intro h
    show pyLower a :: lowerL t = a :: t
    rw [pyLower_eq_self (h a (List.mem_cons_self a t)),
      ih fun c hc => h c (List.mem_cons_of_mem a hc)]

theorem punctL_fix : ∀ l : List Char,
    (∀ c ∈ l, punctKeep c = true) → punctL l = l := by
  intro l
  induction l with
  | nil => intro _; rfl
  | cons a t ih =>
    intro h
    show (if punctKeep a then a else ' ') :: punctL t = a :: t
    rw [if_pos (h a (List.mem_cons_self a t)),
      ih fun c hc => h c (List.mem_cons_of_mem a hc)]

theorem noTwoSp_cons (x : Char) (l : List Char) :
    noTwoSp (x :: l) = (!(isSpaceChar x && headIsSpace l) && noTwoSp l) := by
  cases l with
  | nil => simp [noTwoSp, headIsSpace]
  | cons b t => rfl

theorem noTwoSp_tail {a : Char} {l : List Char} (h : noTwoSp (a :: l) = true) :
    noTwoSp l = true := by
  rw [noTwoSp_cons, Bool.and_eq_true] at h
  exact h.2

theorem squash_headNotSp : ∀ l : List Char, headNotSp (squashGo true l) = true := by
  intro l
  induction l with
  | nil => rfl
  | cons a t ih =>
    unfold squashGo
    by_cases ha : isSpaceChar a
    · simpa [ha] using ih
    · simp [ha, headNotSp, headIsSpace]

theorem squash_noTwo : ∀ (l : List Char) (b : Bool), noTwoSp (squashGo b l) = true := by
  intro l
  induction l with
  | nil => intro b; rfl
  | cons a t ih =>
    intro b
    unfold squashGo
    by_cases ha : isSpaceChar a
    · rw [if_pos ha]
      cases b with
      | true => exact ih true
      | false =>
        simp only [Bool.false_eq_true, if_false]
        have hh := squash_headNotSp t
        unfold headNotSp at hh
        rw [Bool.not_eq_true'] at hh
        rw [noTwoSp_cons]
        simp [hh, ih true]
    · rw [if_neg ha]
      rw [noTwoSp_cons]
      simp [ha, ih false]

theorem headNotSp_dropWhile : ∀ l : List Char,
    headNotSp (l.dropWhile isSpaceChar) = true := by
  intro l
  induction l with
  | nil => rfl
  | cons a t ih =>
    rw [List.dropWhile_cons]
    split
    · exact ih
    · rename_i h
      simp only [headNotSp, headIsSpace]
      simpa using h

theorem headNotSp_of_prefixOf {l₁ l₂ : List Char} (h : l₁ <+: l₂)
    (h2 : headNotSp l₂ = true) : headNotSp l₁ = true := by
  cases l₁ with
  | nil => rfl
  | cons a t =>
    obtain ⟨r, hr⟩ := h
    rw [← hr] at h2
    exact h2

theorem noTwoSp_suffix {l₁ l₂ : List Char} (h : l₁ <:+ l₂)
    (h2 : noTwoSp l₂ = true) : noTwoSp l₁ = true := by
  obtain ⟨r, hr⟩ := h
  subst hr
  revert h2
  induction r with
  | nil => intro h2; exact h2
  | cons a t ih => intro h2; exact ih (noTwoSp_tail h2)

theorem noTwoSp_prefixOf {l₁ l₂ : List Char} (h : l₁ <+: l₂)
    (h2 : noTwoSp l₂ = true) : noTwoSp l₁ = true := by
  obtain ⟨r, hr⟩ := h
  subst hr
  revert h2
  induction l₁ with
  | nil => intro _; rfl
  | cons a t ih =>
    intro h2
    rw [List.cons_append] at h2
    rw [noTwoSp_cons] at h2 ⊢
    rw [Bool.and_eq_true] at h2 ⊢
    obtain ⟨hA, hB⟩ := h2
    refine ⟨?_, ih hB⟩
    cases t with
    | nil => simp [headIsSpace]
    | cons b t' => simpa [headIsSpace, List.cons_append] using hA

theorem squash_fix : ∀ l : List Char,
    (∀ c ∈ l, isSpaceChar c = true → c = ' ') → noTwoSp l = true →
    ∀ b : Bool, (b = true → headNotSp l = true) → squashGo b l = l := by
  intro l
  induction l with
  | nil => intro _ _ b _; rfl
  | cons a t ih =>
    intro hsp hnt b hb
    unfold squashGo
    by_cases ha : isSpaceChar a
    · cases b with
      | true =>
        exfalso
        have := hb rfl
        simp [headNotSp, headIsSpace, ha] at this
      | false =>
        rw [if_pos ha]
        simp only [Bool.false_eq_true, if_false]
        have ha' : a = ' ' := hsp a (List.mem_cons_self a t) ha
        rw [ha']
        congr 1
        have hhd : headIsSpace t = false := by
          rw [noTwoSp_cons, Bool.and_eq_true] at hnt
          have h1 := hnt.1
          simp [ha] at h1
          exact h1
        exact ih (fun c hc h => hsp c (List.mem_cons_of_mem a hc) h)
          (noTwoSp_tail hnt) true
          (fun _ => by simp [headNotSp, hhd])
    · rw [if_neg ha]
      congr 1
      exact ih (fun c hc h => hsp c (List.mem_cons_of_mem a hc) h)
        (noTwoSp_tail hnt) false (fun h => absurd h (by decide))

theorem trimLeft_fix {l : List Char} (h : headNotSp l = true) : trimLeft l = l := by
  cases l with
  | nil => rfl
  | cons a t =>
    simp only [headNotSp, headIsSpace, Bool.not_eq_true'] at h
    simp [trimLeft, List.dropWhile_cons, h]

theorem trimRight_fix {l : List Char} (h : headNotSp l.reverse = true) :
    trimRight l = l := by
  unfold trimRight
  have h2 := trimLeft_fix h
  unfold trimLeft at h2
  rw [h2, List.reverse_reverse]

theorem collapseL_idem (x : List Char) : collapseL (collapseL x) = collapseL x := by
  have hsp : ∀ c ∈ collapseL x, isSpaceChar c = true → c = ' ' := by
    intro c hc hspc
    rcases mem_collapseL hc with ⟨_, h2⟩ | h1
    · rw [hspc] at h2
      cases h2
    · exact h1
  have hnt : noTwoSp (collapseL x) = true :=
    noTwoSp_prefixOf (trimRight_prefixOf _)
      (noTwoSp_suffix (List.dropWhile_suffix _) (squash_noTwo x false))
  have hhd : headNotSp (collapseL x) = true :=
    headNotSp_of_prefixOf (trimRight_prefixOf _) (headNotSp_dropWhile _)
  have hlast : headNotSp (collapseL x).reverse = true := by
    show headNotSp (trimRight (trimLeft (squashGo false x))).reverse = true
    unfold trimRight
    rw [List.reverse_reverse]
    exact headNotSp_dropWhile _
  show trimBoth (squashGo false (collapseL x)) = collapseL x
  rw [squash_fix (collapseL x) hsp hnt false (fun h => absurd h (by decide))]
  unfold trimBoth
  rw [trimLeft_fix hhd, trimRight_fix hlast]

/-! ### Claim C2 — normalization idempotence -/

/-- C2, counterexample: normalization is not idempotent.  `"b,v"` normalizes
to `"b v"` (the comma blocks the suffix regex, then becomes a space), but
normalizing `"b v"` removes it entirely as a `b\.?\s*v\.?` legal-suffix
match. -/
theorem normalize_company_not_idempotent :
    normalize_company (normalize_company "b,v") ≠ normalize_company "b,v" := by decide

/-- C2, amended: normalization is idempotent on every string whose
normalized form the legal-suffix removal step leaves unchanged.  (In
general, the punctuation step of a first normalization can create a fresh
legal-suffix word — e.g. `"b,v"` → `"b v"` — which a second normalization
removes.) -/
theorem normalize_company_idem_of_suffix_fixed (s : String)
    (h : stripSuffL (normalize_company s).data = (normalize_company s).data) :
    normalize_company (normalize_company s) = normalize_company s := by
  unfold normalize_company
  refine congrArg String.mk ?_
  show normalizeL (normalizeL s.data) = normalizeL s.data
  have hchars : ∀ c ∈ normalizeL s.data,
      isLowerAZ c = true ∨ isDigitC c = true ∨ c = ' ' :=
    fun c hc => mem_normalizeL hc
  have hlow : lowerL (normalizeL s.data) = normalizeL s.data := lowerL_fix _ hchars
  have hstr : stripSuffL (normalizeL s.data) = normalizeL s.data := h
  have hpun : punctL (normalizeL s.data) = normalizeL s.data := by
    apply punctL_fix
    intro c hc
    rcases hchars c hc with h1 | h1 | h1
    · simp [punctKeep, h1]
    · simp [punctKeep, h1]
    · subst h1
      decide
  calc normalizeL (normalizeL s.data)
      = collapseL (punctL (stripSuffL (lowerL (normalizeL s.data)))) := rfl
    _ = collapseL (punctL (stripSuffL (normalizeL s.data))) := by rw [hlow]
    _ = collapseL (punctL (normalizeL s.data)) := by rw [hstr]
    _ = collapseL (normalizeL s.data) := by rw [hpun]
    _ = normalizeL s.data := collapseL_idem _

/-- Witness for C2 (amended) at `"Acme!"`: its normalization `"acme"` is a
fixed point of suffix removal, and renormalizing it changes nothing. -/
theorem normalize_company_idem_witness :
    stripSuffL (normalize_company "Acme!").data = (normalize_company "Acme!").data ∧
    normalize_company (normalize_company "Acme!") = normalize_company "Acme!" :=
  ⟨by decide, normalize_company_idem_of_suffix_fixed "Acme!" (by decide)⟩

/-! ### Claim C3 — variant extraction -/

/-- C3, counterexample: `"..."` is non-blank, yet its variant set is empty
(its whole-string normalization is the empty string, which is filtered
out), so the set neither is non-empty nor contains the whole-string
normalization. -/
theorem extract_variants_blank_norm_cex :
    isBlankStr "..." = false ∧ extract_variants "..." = [] := by decide

/-- Accumulator monotonicity of the separator fold of `_extract_variants`. -/
theorem mem_foldl_variants (x raw : String) :
    ∀ (seps : List (List Char)) (acc : List String), x ∈ acc →
      x ∈ seps.foldl (fun acc sep =>
        if isSubL sep raw.data then
          acc ++ ((splitOnL sep raw.data).map
            (fun part => normalize_company (trimStr ⟨part⟩))).filter
              (fun n => decide (3 ≤ n.length))
        else acc) acc := by
  intro seps
  induction seps with
  | nil => intro acc hx; exact hx
  | cons s rest ih =>
    intro acc hx
    refine ih _ ?_
    by_cases hs : isSubL s raw.data
    · simp only [hs, if_true]
      exact List.mem_append_left _ hx
    · simp only [hs, if_false]
      exact hx

/-- C3, amended: for every input whose whole-string normalization is
non-empty, the variant set is non-empty and contains the whole-string
normalization; and for every input, no element of the variant set is the
empty string. -/
theorem extract_variants_contains_norm (raw : String)
    (h : normalize_company raw ≠ "") :
    normalize_company raw ∈ extract_variants raw ∧
    extract_variants raw ≠ [] ∧
    "" ∉ extract_variants raw := by
  have hmem : normalize_company raw ∈ extract_variants raw := by
    unfold extract_variants
    apply List.mem_filter.mpr
    refine ⟨mem_foldl_variants _ raw SEPS _ (List.mem_singleton.mpr rfl), ?_⟩
    simp [h]
  refine ⟨hmem, List.ne_nil_of_mem hmem, ?_⟩
  intro habs
  have := (List.mem_filter.mp habs).2
  simp at this

/-- Witness for C3 (amended): `"Acme!"` normalizes to the non-empty
`"acme"`, which its variant set contains. -/
theorem extract_variants_contains_norm_witness :
    normalize_company "Acme!" ∈ extract_variants "Acme!" :=
  (extract_variants_contains_norm "Acme!" (by decide)).1

/-! ### Claim C6 — the mail-step check order -/

/-- C6: `step_send_mail` applies its checks in the fixed order DNC match on
the company name, then membership of the lowercased email in the
suppressed-email set, then membership of the lowercased company name in the
contacted-companies set, and the first matching check wins.  Because
`get_all_rows` (sheets.py:113) strips and lowercases every email cell at
ingestion, the membership probe `email in suppressed` is exactly the claim's
`email.lower() in suppressedEmails`.  The four iffs characterise every
outcome: each check fires only when all earlier checks declined, a firing
check decides the outcome regardless of the later sets — in particular a lead
whose company is both DNC-listed and in `contactedCompanies` reports DNC —
and a lead is sendable exactly when all three checks decline. -/
theorem classify_lead_order (company email : String)
    (d s c : List String) :
    (classify_lead company email d s c = .dnc ↔
        (is_do_not_contact (ingest_company company) d).1 = true) ∧
    (classify_lead company email d s c = .suppressedEmail ↔
        (is_do_not_contact (ingest_company company) d).1 = false ∧
        lowerStr (trimStr email) ∈ s) ∧
    (classify_lead company email d s c = .contactedCompany ↔
        (is_do_not_contact (ingest_company company) d).1 = false ∧
        lowerStr (trimStr email) ∉ s ∧
        lowerStr (ingest_company company) ∈ c) ∧
    (classify_lead company email d s c = .sendable ↔
        (is_do_not_contact (ingest_company company) d).1 = false ∧
        lowerStr (trimStr email) ∉ s ∧
        lowerStr (ingest_company company) ∉ c) := by
  unfold classify_lead
  by_cases h1 : (is_do_not_contact (ingest_company company) d).1 = true
  · simp [h1, ingest_email]
  · rw [Bool.not_eq_true] at h1
    by_cases h2 : lowerStr (trimStr email) ∈ s
    · simp [h1, h2, ingest_email]
    · by_cases h3 : lowerStr (ingest_company company) ∈ c
      · simp [h1, h2, h3, ingest_email]
      · simp [h1, h2, h3, ingest_email]

/-! ### Claim C7 — loading the DNC registry -/

/-- C7, counterexample: a CSV source lacking the expected `Bedrijf` column
does not raise — the loader silently falls back to the first column and
returns a registry built from it. -/
theorem load_dnc_csv_fallback_cex :
    "Bedrijf" ∉ csvNoBedrijf.columns ∧
    load_do_not_contact (some csvNoBedrijf) = .ok ["acme"] := by
  exact ⟨by decide, rfl⟩

/-- C7, amended: the loader errors exactly when the path does not exist, or
the source is an Excel sheet without a `Bedrijf` column, or a CSV without a
`Bedrijf` column and without any column at all; a CSV lacking `Bedrijf` but
having columns falls back to its first column and succeeds. -/
theorem load_dnc_error_iff (file : Option DncTable) :
    (∃ err, load_do_not_contact file = .error err) ↔
      (file = none ∨
        ∃ t, file = some t ∧ "Bedrijf" ∉ t.columns ∧
          (t.isCsv = false ∨ t.columns = [])) := by
  cases file with
  | none => simp [load_do_not_contact]
  | some t =>
    simp only [load_do_not_contact]
    by_cases hB : "Bedrijf" ∈ t.columns
    · cases hCsv : t.isCsv
      · simp [hB, hCsv]
      · simp [hB, hCsv]
    · cases hCsv : t.isCsv
      · simp [hB, hCsv]
      · cases hcols : t.columns with
        | nil => simp [hB, hCsv, hcols]
        | cons c rest =>
          have hBc : ¬("Bedrijf" = c ∨ "Bedrijf" ∈ rest) := by
            rw [hcols] at hB
            simpa using hB
          simp [hB, hCsv, hcols, hBc]

/-! ### Claim C8 — loading the contact history -/

/-- C8, counterexample: loading the contact history from a missing path does
not degrade gracefully — it raises `FileNotFoundError`. -/
theorem load_recent_contacts_missing_cex :
    load_recent_contacts true none ⟨2026, 1, 1, 0⟩ = .error .fileNotFound := rfl

/-- C8, amended: a missing contact-history file makes `load_recent_contacts`
raise `FileNotFoundError` (it does not degrade); graceful degradation exists
only in the sense that consulting an empty history blocks nothing. -/
theorem recent_contacts_missing_behavior :
    (∀ now, load_recent_contacts true none now = .error .fileNotFound) ∧
    (∀ company now, is_recent_contact company [] now = (false, "")) :=
  ⟨fun _ => rfl, fun _ _ => rfl⟩

/-! ### Claim C9 — totality of the core matching functions -/

/-- C9: the core matching functions are total over their documented domains;
an empty registry, a blank company name, or an empty contact history simply
produce "not blocked" results. -/
theorem core_matching_total :
    (∀ company, is_do_not_contact company [] = (false, "")) ∧
    (∀ company dnc_set, isBlankStr company = true →
      is_do_not_contact company dnc_set = (false, "")) ∧
    (∀ company now, is_recent_contact company [] now = (false, "")) := by
  refine ⟨?_, ?_, fun _ _ => rfl⟩
  · intro company
    by_cases hb : isBlankStr company
    · simp [is_do_not_contact, hb]
    · unfold is_do_not_contact
      rw [if_neg hb]
      have h1 : (extract_variants company).find?
          (fun v => decide (v ∈ ([] : List String))) = none :=
        List.find?_eq_none.mpr (fun x _ => by simp)
      rw [h1]
      rfl
  · intro company dnc_set hb
    simp [is_do_not_contact, hb]

/-- Witness for C9: a whitespace-only company name against a non-empty
registry is not blocked. -/
theorem core_matching_total_witness :
    is_do_not_contact "   " ["abcdefgh"] = (false, "") :=
  core_matching_total.2.1 "   " ["abcdefgh"] (by decide)

/-! ### Claim C4 — the cooldown check -/

/-- C4: `is_recent_contact` blocks a company exactly when some matched event
is younger than its cooldown window; the window is 90 days for a LIGHT event
and 365 days for a HEAVY one, and an event is LIGHT exactly when its
normalized type set is non-empty and contained in the light-contact types.
A multi-part label such as `"Gemaild (2); Gesprek"` is HEAVY. -/
theorem is_recent_contact_spec (company : String) (contacts : RCDict) (now : DTime) :
    ((is_recent_contact company contacts now).1 = true ↔
      ∃ ev ∈ matchedEvents company contacts, subTicks now ev.1 < cooldownFor ev.2) ∧
    (∀ typeRaw, cooldownFor typeRaw =
      if is_light_contact (normalize_type typeRaw) = true then 90 * USPERDAY
      else 365 * USPERDAY) ∧
    (∀ typeRaw, is_light_contact (normalize_type typeRaw) = true ↔
      (normalize_type typeRaw ≠ [] ∧ ∀ t ∈ normalize_type typeRaw, t ∈ LIGHT_TYPES)) ∧
    is_light_contact (normalize_type "Gemaild (2); Gesprek") = false := by
  refine ⟨?_, fun typeRaw => rfl, ?_, by decide⟩
  · unfold is_recent_contact
    cases h : (matchedEvents company contacts).find?
        (fun ev => decide (subTicks now ev.1 < cooldownFor ev.2)) with
    | some ev =>
      have hp := List.find?_some h
      simp only [decide_eq_true_eq] at hp
      simp only [h]
      constructor
      · intro _
        exact ⟨ev, List.mem_of_find?_eq_some h, hp⟩
      · intro _
        trivial
    | none =>
      simp only [h]
      constructor
      · intro habs
        exact absurd habs (by simp)
      · rintro ⟨ev, hmem, hlt⟩
        have hne := List.find?_eq_none.mp h ev hmem
        simp at hne
        exact absurd hlt (not_lt.mpr hne)
  · intro typeRaw
    unfold is_light_contact
    rw [Bool.and_eq_true]
    constructor
    · rintro ⟨h1, h2⟩
      refine ⟨?_, ?_⟩
      · intro he
        rw [he] at h1
        simp at h1
      · intro t ht
        exact of_decide_eq_true (List.all_eq_true.mp h2 t ht)
    · rintro ⟨h1, h2⟩
      refine ⟨?_, List.all_eq_true.mpr fun t ht => decide_eq_true (h2 t ht)⟩
      cases hNE : normalize_type typeRaw with
      | nil => exact absurd hNE h1
      | cons a l => rfl

/-! ### Claim C1 — the Do-Not-Contact decision -/

/-- C1: a blank candidate is never blocked; a non-blank candidate is blocked
exactly when some of its variants is in the registry (exact pass) or some
registry entry of length at least 8 outside the stop-word set is a substring
of the candidate's whole-string normalization or vice versa (substring
pass); the matched token is such a variant, resp. such an entry.  In
particular a stop-word registry entry never causes a substring-pass block,
and entries shorter than 8 characters block only via the exact pass. -/
theorem is_do_not_contact_spec (company : String) (dnc_set : List String) :
    (isBlankStr company = true → is_do_not_contact company dnc_set = (false, "")) ∧
    (isBlankStr company = false →
      (((is_do_not_contact company dnc_set).1 = true) ↔
        ((∃ v ∈ extract_variants company, v ∈ dnc_set) ∨
         (∃ e ∈ dnc_set, 8 ≤ e.length ∧ e ∉ STOPWORDS ∧
           (isSubL e.data (normalize_company company).data = true ∨
            isSubL (normalize_company company).data e.data = true)))) ∧
      ((is_do_not_contact company dnc_set).1 = true →
        (((is_do_not_contact company dnc_set).2 ∈ extract_variants company ∧
          (is_do_not_contact company dnc_set).2 ∈ dnc_set) ∨
         ((is_do_not_contact company dnc_set).2 ∈ dnc_set ∧
          8 ≤ (is_do_not_contact company dnc_set).2.length ∧
          (is_do_not_contact company dnc_set).2 ∉ STOPWORDS ∧
          (isSubL (is_do_not_contact company dnc_set).2.data
              (normalize_company company).data = true ∨
           isSubL (normalize_company company).data
              (is_do_not_contact company dnc_set).2.data = true))))) := by
  constructor
  · intro hb
    simp [is_do_not_contact, hb]
  · intro hnb
    have hnb' : ¬(isBlankStr company = true) := by simp [hnb]
    unfold is_do_not_contact
    rw [if_neg hnb']
    cases h1 : (extract_variants company).find? (fun v => decide (v ∈ dnc_set)) with
    | some v =>
      have hp := List.find?_some h1
      simp only [decide_eq_true_eq] at hp
      simp only [h1]
      refine ⟨⟨fun _ => ?_, fun _ => trivial⟩, fun _ => ?_⟩
      · exact Or.inl ⟨v, List.mem_of_find?_eq_some h1, hp⟩
      · exact Or.inl ⟨List.mem_of_find?_eq_some h1, hp⟩
    | none =>
      cases h2 : dnc_set.find? (fun e =>
          decide (8 ≤ e.length) && decide (e ∉ STOPWORDS) &&
          (isSubL e.data (normalize_company company).data ||
           isSubL (normalize_company company).data e.data)) with
      | some e =>
        have hp := List.find?_some h2
        rw [Bool.and_eq_true, Bool.and_eq_true, Bool.or_eq_true] at hp
        obtain ⟨⟨hlen, hstop⟩, hsub⟩ := hp
        simp only [h1, h2]
        refine ⟨⟨fun _ => ?_, fun _ => trivial⟩, fun _ => ?_⟩
        · exact Or.inr ⟨e, List.mem_of_find?_eq_some h2,
            of_decide_eq_true hlen, of_decide_eq_true hstop, hsub⟩
        · exact Or.inr ⟨List.mem_of_find?_eq_some h2,
            of_decide_eq_true hlen, of_decide_eq_true hstop, hsub⟩
      | none =>
        simp only [h1, h2]
        refine ⟨⟨fun habs => absurd habs (by simp), ?_⟩, fun habs => absurd habs (by simp)⟩
        rintro (⟨v, hv, hvd⟩ | ⟨e, he, hlen, hstop, hsub⟩)
        · have := List.find?_eq_none.mp h1 v hv
          simp at this
          exact absurd hvd this
        · have h3 := List.find?_eq_none.mp h2 e he
          simp at h3
          rcases hsub with h | h
          · rw [(h3 hlen hstop).1] at h
            exact absurd h (by simp)
          · rw [(h3 hlen hstop).2] at h
            exact absurd h (by simp)

/-- Witness for C1: `"Acme B.V."` against registry `{"acme"}` is blocked via
the exact pass. -/
theorem is_do_not_contact_spec_witness :
    isBlankStr "Acme B.V." = false ∧ (is_do_not_contact "Acme B.V." ["acme"]).1 = true :=
  ⟨by decide,
   (((is_do_not_contact_spec "Acme B.V." ["acme"]).2 (by decide)).1).mpr
     (Or.inl ⟨"acme", by decide, by decide⟩)⟩

/-! ### Suffix-regex scanner decomposition

No suffix-regex match can cross an inert character (a separator character
or, more generally, any non-word character no item consumes), so the
scanner distributes over such characters.  These lemmas drive the claim
that a candidate whose whole-string normalization is empty has no
variants. -/

theorem space_enum {c : Char} (h : isSpaceChar c = true) :
    c = ' ' ∨ c = '\t' ∨ c = '\n' ∨ c = '\r' ∨ c = '\x0b' ∨ c = '\x0c' := by
  unfold isSpaceChar at h
  simp only [Bool.or_eq_true, beq_iff_eq] at h
  tauto

theorem space_props {c : Char} (h : isSpaceChar c = true) :
    isAltLetter c = false ∧ isWordChar c = false ∧ (c == '.') = false ∧ pyLower c = c := by
  rcases space_enum h with h1 | h1 | h1 | h1 | h1 | h1 <;> subst h1 <;> decide

theorem alnum_not_space {c : Char} (h : (isLowerAZ c || isDigitC c) = true) :
    isSpaceChar c = false := by
  by_cases hs : isSpaceChar c
  · rcases space_enum hs with h1 | h1 | h1 | h1 | h1 | h1 <;> subst h1 <;>
      exact absurd h (by decide)
  · simpa using hs

theorem beq_false_of_alt {b c : Char} (hc : isAltLetter c = true)
    (hb : isAltLetter b = false) : (b == c) = false := by
  by_cases h : b = c
  · subst h
    rw [hc] at hb
    cases hb
  · simp [h]

theorem inertTail_props {b : Char} {v : List Char} (h : inertTail (b :: v) = true) :
    isAltLetter b = false ∧ isWordChar b = false ∧ (b == '.') = false := by
  by_cases hs : isSpaceChar b
  · have hp := space_props hs
    exact ⟨hp.1, hp.2.1, hp.2.2.1⟩
  · unfold inertTail at h
    rw [List.dropWhile_cons, if_neg (by simpa using hs)] at h
    simp only [Bool.and_eq_true, Bool.not_eq_true', bne_iff_ne] at h
    exact ⟨h.1.1, h.2, by simpa using h.1.2⟩

theorem inertTail_head_not_word {tail : List Char} (h : inertTail tail = true) :
    headIsWord tail = false := by
  cases tail with
  | nil => rfl
  | cons b v =>
    show isWordChar b = false
    by_cases hs : isSpaceChar b
    · exact (space_props hs).2.1
    · exact (inertTail_props h).2.1

theorem headIsWord_append_inert {x tail : List Char} (hT : inertTail tail = true) :
    headIsWord (x ++ tail) = headIsWord x := by
  cases x with
  | nil => simpa using inertTail_head_not_word hT
  | cons c t => rfl

/-- The head of an inert tail is never an alternative letter. -/
theorem inertTail_head_not_alt {b : Char} {v : List Char}
    (h : inertTail (b :: v) = true) : isAltLetter b = false := (inertTail_props h).1

/-- A suffix-regex alternative cannot start matching on an inert tail. -/
theorem matchItems_lit_tail {c : Char} {rest : List RItem} {lw : Bool}
    {tail : List Char} (hc : isAltLetter c = true) (hT : inertTail tail = true) :
    matchItems (.lit c :: rest) lw tail = none := by
  cases tail with
  | nil => rfl
  | cons b v =>
    have hb : isAltLetter b = false := by
      by_cases hs : isSpaceChar b
      · exact (space_props hs).1
      · exact inertTail_head_not_alt hT
    simp only [matchItems, beq_false_of_alt hc hb, Bool.false_eq_true, if_false]

/-- A suffix-regex alternative cannot start matching on an inert tail that
had its leading whitespace dropped. -/
theorem matchItems_lit_dropped {c : Char} {rest : List RItem} {lw : Bool}
    {tail : List Char} (hc : isAltLetter c = true) (hT : inertTail tail = true) :
    matchItems (.lit c :: rest) lw (tail.dropWhile isSpaceChar) = none := by
  cases hd : tail.dropWhile isSpaceChar with
  | nil => rfl
  | cons b v =>
    have hb : isAltLetter b = false := by
      unfold inertTail at hT
      rw [hd] at hT
      simp only [Bool.and_eq_true, Bool.not_eq_true'] at hT
      exact hT.1.1
    simp only [matchItems, beq_false_of_alt hc hb, Bool.false_eq_true, if_false]

/-- No suffix-regex match extends from `x` into an inert tail: matching on
`x ++ tail` is matching on `x` with the tail re-attached to the remainder. -/
theorem matchItems_append :
    ∀ items : List RItem, altOK items = true →
    ∀ (lw : Bool) (x tail : List Char), inertTail tail = true →
      matchItems items lw (x ++ tail) =
        (matchItems items lw x).map (fun r => (r.1, r.2 ++ tail)) := by
  intro items
  induction items with
  | nil =>
    intro _ lw x tail hT
    simp only [matchItems, headIsWord_append_inert hT]
    split <;> simp
  | cons hd rest ih =>
    cases hd with
    | lit c =>
      intro hOK lw x tail hT
      simp only [altOK, Bool.and_eq_true] at hOK
      obtain ⟨hc, hrest⟩ := hOK
      cases x with
      | nil =>
        rw [List.nil_append, matchItems_lit_tail hc hT]
        rfl
      | cons a t =>
        simp only [List.cons_append, matchItems]
        by_cases hac : (a == c) = true
        · simp only [hac, if_true]
          exact ih hrest (isWordChar a) t tail hT
        · simp only [Bool.not_eq_true] at hac
          simp only [hac, Bool.false_eq_true, if_false, Option.map_none']
    | optDot =>
      intro hOK lw x tail hT
      have hrest : altOK rest = true := hOK
      cases x with
      | nil =>
        rw [List.nil_append]
        have hRHS : matchItems (.optDot :: rest) lw ([] : List Char)
            = matchItems rest lw [] := rfl
        rw [hRHS]
        cases tail with
        | nil => exact ih hrest lw [] [] (by decide)
        | cons b v =>
          have hbd : (b == '.') = false := by
            by_cases hs : isSpaceChar b
            · exact (space_props hs).2.2.1
            · exact (inertTail_props hT).2.2
          simp only [matchItems, hbd, Bool.false_eq_true, if_false]
          exact ih hrest lw [] (b :: v) hT
      | cons a t =>
        simp only [List.cons_append, matchItems]
        by_cases had : (a == '.') = true
        · simp only [had, if_true]
          rw [ih hrest false t tail hT]
          rw [show a :: (t ++ tail) = (a :: t) ++ tail from rfl]
          rw [ih hrest lw (a :: t) tail hT]
          cases matchItems rest false t <;> simp [Option.orElse]
        · simp only [Bool.not_eq_true] at had
          simp only [had, Bool.false_eq_true, if_false]
          rw [show a :: (t ++ tail) = (a :: t) ++ tail from rfl]
          exact ih hrest lw (a :: t) tail hT
    | starSpace =>
      intro hOK lw x tail hT
      cases rest with
      | nil => simp [altOK] at hOK
      | cons hd2 rest2 =>
        cases hd2 with
        | lit c =>
          simp only [altOK, Bool.and_eq_true] at hOK
          obtain ⟨hc, hrest2⟩ := hOK
          have hrest : altOK (RItem.lit c :: rest2) = true := by
            simp [altOK, hc, hrest2]
          have hstar : ∀ (lw : Bool) (l : List Char),
              matchItems (RItem.starSpace :: (RItem.lit c :: rest2)) lw l =
                matchItems (RItem.lit c :: rest2)
                  (if headIsSpace l = true then false else lw)
                  (l.dropWhile isSpaceChar) := fun _ _ => rfl
          rw [hstar, hstar]
          cases hx : x.dropWhile isSpaceChar with
          | nil =>
            have hdw : (x ++ tail).dropWhile isSpaceChar = tail.dropWhile isSpaceChar := by
              rw [List.dropWhile_append, hx]
              rfl
            rw [hdw, matchItems_lit_dropped hc hT]
            rfl
          | cons d ds =>
            have hdw : (x ++ tail).dropWhile isSpaceChar
                = x.dropWhile isSpaceChar ++ tail := by
              rw [List.dropWhile_append, hx]
              rfl
            have hhd : headIsSpace (x ++ tail) = headIsSpace x := by
              cases x with
              | nil => simp at hx
              | cons a t => rfl
            rw [hdw, hhd, hx]
            exact ih hrest _ (d :: ds) tail hT
        | optDot => simp [altOK] at hOK
        | starSpace => simp [altOK] at hOK

theorem foldr_alts_append (alts : List (List RItem))
    (hOKs : ∀ a ∈ alts, altOK a = true) (x tail : List Char)
    (hT : inertTail tail = true) :
    (alts.foldr (fun alt acc =>
        (matchItems alt false (x ++ tail)).orElse (fun _ => acc)) none) =
      (alts.foldr (fun alt acc =>
        (matchItems alt false x).orElse (fun _ => acc)) none).map
          (fun r => (r.1, r.2 ++ tail)) := by
  induction alts with
  | nil => rfl
  | cons a as ih =>
    simp only [List.foldr_cons]
    rw [matchItems_append a (hOKs a (List.mem_cons_self a as)) false x tail hT]
    cases h1 : matchItems a false x with
    | some r => simp [Option.orElse]
    | none =>
      simp only [Option.map_none', Option.orElse, Option.orElse.eq_def]
      exact ih fun b hb => hOKs b (List.mem_cons_of_mem a hb)

/-- No suffix-regex match reaches from `x` into an inert tail. -/
theorem tryAlts_append (x tail : List Char) (hT : inertTail tail = true) :
    tryAlts (x ++ tail) = (tryAlts x).map (fun r => (r.1, r.2 ++ tail)) :=
  foldr_alts_append suffixAlts (by decide) x tail hT

/-- At a character that is not a suffix-alternative letter, no alternative
matches. -/
theorem tryAlts_nonletter {b : Char} (hb : isAltLetter b = false)
    (v : List Char) : tryAlts (b :: v) = none := by
  have h1 : (b == 'b') = false := beq_false_of_alt (by decide) hb
  have h2 : (b == 'n') = false := beq_false_of_alt (by decide) hb
  have h3 : (b == 'v') = false := beq_false_of_alt (by decide) hb
  have h4 : (b == 'l') = false := beq_false_of_alt (by decide) hb
  have h5 : (b == 'g') = false := beq_false_of_alt (by decide) hb
  have h6 : (b == 'i') = false := beq_false_of_alt (by decide) hb
  simp [tryAlts, suffixAlts, matchItems, h1, h2, h3, h4, h5, h6, Option.orElse]

theorem matchItems_length :
    ∀ (items : List RItem) (lw : Bool) (l : List Char) (r : Bool × List Char),
      matchItems items lw l = some r → r.2.length ≤ l.length := by
  intro items
  induction items with
  | nil =>
    intro lw l r h
    simp only [matchItems] at h
    split at h
    · cases h
      exact le_refl _
    · cases h
  | cons hd rest ih =>
    cases hd with
    | lit c =>
      intro lw l r h
      cases l with
      | nil => cases h
      | cons a t =>
        simp only [matchItems] at h
        split at h
        · exact le_trans (ih _ t r h) (Nat.le_succ _)
        · cases h
    | optDot =>
      intro lw l r h
      cases l with
      | nil => exact ih _ [] r h
      | cons a t =>
        simp only [matchItems] at h
        split at h
        · rcases ho : matchItems rest false t with _ | r'
          · rw [ho] at h
            simp only [Option.orElse, Option.orElse.eq_def] at h
            exact ih _ (a :: t) r h
          · rw [ho] at h
            simp only [Option.orElse, Option.orElse.eq_def] at h
            cases h
            exact le_trans (ih _ t _ ho) (Nat.le_succ _)
        · exact ih _ (a :: t) r h
    | starSpace =>
      intro lw l r h
      have hlen : (l.dropWhile isSpaceChar).length ≤ l.length :=
        (List.dropWhile_suffix isSpaceChar).length_le
      exact le_trans (ih _ _ r h) hlen

theorem headLit_length {items : List RItem} (hl : headLit items = true)
    {lw : Bool} {l : List Char} {r : Bool × List Char}
    (h : matchItems items lw l = some r) : r.2.length < l.length := by
  cases items with
  | nil => cases hl
  | cons hd rest =>
    cases hd with
    | lit c =>
      cases l with
      | nil => cases h
      | cons a t =>
        simp only [matchItems] at h
        split at h
        · exact Nat.lt_succ_of_le (matchItems_length rest _ t r h)
        · cases h
    | optDot => cases hl
    | starSpace => cases hl

theorem foldr_alts_some (alts : List (List RItem)) (l : List Char)
    (r : Bool × List Char)
    (h : (alts.foldr (fun alt acc =>
        (matchItems alt false l).orElse (fun _ => acc)) none) = some r) :
    ∃ alt ∈ alts, matchItems alt false l = some r := by
  induction alts with
  | nil => cases h
  | cons a as ih =>
    simp only [List.foldr_cons] at h
    cases h1 : matchItems a false l with
    | some r' =>
      rw [h1] at h
      simp only [Option.orElse] at h
      cases h
      exact ⟨a, List.mem_cons_self a as, h1⟩
    | none =>
      rw [h1] at h
      simp only [Option.orElse, Option.orElse.eq_def] at h
      obtain ⟨alt, halt, hm⟩ := ih h
      exact ⟨alt, List.mem_cons_of_mem a halt, hm⟩

/-- Every suffix-regex match consumes at least one character. -/
theorem tryAlts_length {l : List Char} {r : Bool × List Char}
    (h : tryAlts l = some r) : r.2.length < l.length := by
  obtain ⟨alt, halt, hm⟩ := foldr_alts_some suffixAlts l r h
  have hl : headLit alt = true := by
    fin_cases halt <;> rfl
  exact headLit_length hl hm

/-- The scanner is fuel-irrelevant once the fuel covers the input length. -/
theorem stripGo_fuel :
    ∀ (f₁ : Nat), ∀ (f₂ : Nat) (pw : Bool) (l : List Char),
      l.length ≤ f₁ → l.length ≤ f₂ → stripGo f₁ pw l = stripGo f₂ pw l := by
  intro f₁
  induction f₁ with
  | zero =>
    intro f₂ pw l h1 _
    rw [Nat.le_zero] at h1
    rw [List.length_eq_zero] at h1
    subst h1
    cases f₂ <;> rfl
  | succ f ih =>
    intro f₂ pw l h1 h2
    cases l with
    | nil => cases f₂ <;> rfl
    | cons c t =>
      cases f₂ with
      | zero => simp at h2
      | succ f' =>
        simp only [stripGo]
        have ht : t.length ≤ f := by
          simp at h1
          omega
        have ht' : t.length ≤ f' := by
          simp at h2
          omega
        by_cases hpw : pw
        · rw [if_pos hpw, if_pos hpw, ih f' _ t ht ht']
        · rw [if_neg hpw, if_neg hpw]
          cases hm : tryAlts (c :: t) with
          | some r =>
            have hlt := tryAlts_length hm
            simp at hlt
            exact ih f' r.1 r.2 (by omega) (by omega)
          | none => rw [ih f' _ t ht ht']

/-- The scanner distributes over an inert character: no match crosses it,
it never starts a match, and scanning after it restarts with a non-word
previous character. -/
theorem stripGo_split (b : Char) (v : List Char) (hbAlt : isAltLetter b = false)
    (hbWord : isWordChar b = false) (hbI : inertTail (b :: v) = true) :
    ∀ (f₁ : Nat) (pw : Bool) (x : List Char) (f₂ f₃ : Nat),
      (x ++ b :: v).length ≤ f₁ → x.length ≤ f₂ → v.length ≤ f₃ →
      stripGo f₁ pw (x ++ b :: v) = stripGo f₂ pw x ++ b :: stripGo f₃ false v := by
  intro f₁
  induction f₁ with
  | zero =>
    intro pw x f₂ f₃ h1 _ _
    simp at h1
  | succ f ih =>
    intro pw x f₂ f₃ h1 h2 h3
    have hv : v.length ≤ f := by
      simp [List.length_append] at h1
      omega
    cases x with
    | nil =>
      have hnil : stripGo f₂ pw ([] : List Char) = [] := by cases f₂ <;> rfl
      rw [List.nil_append, hnil, List.nil_append]
      simp only [stripGo]
      by_cases hpw : pw
      · rw [if_pos hpw, hbWord]
        congr 1
        exact stripGo_fuel f f₃ false v hv h3
      · rw [if_neg hpw, tryAlts_nonletter hbAlt v, hbWord]
        show b :: stripGo f false v = b :: stripGo f₃ false v
        congr 1
        exact stripGo_fuel f f₃ false v hv h3
    | cons c t =>
      have ht1 : (t ++ b :: v).length ≤ f := by
        simp [List.length_append] at h1 ⊢
        omega
      cases f₂ with
      | zero => simp at h2
      | succ f₂' =>
        have ht2 : t.length ≤ f₂' := by
          simp at h2
          omega
        rw [List.cons_append]
        simp only [stripGo]
        by_cases hpw : pw
        · rw [if_pos hpw, if_pos hpw, List.cons_append]
          congr 1
          exact ih (isWordChar c) t f₂' f₃ ht1 ht2 h3
        · rw [if_neg hpw, if_neg hpw]
          have happ := tryAlts_append (c :: t) (b :: v) hbI
          rw [show c :: (t ++ b :: v) = (c :: t) ++ (b :: v) from rfl, happ]
          cases hm : tryAlts (c :: t) with
          | some r =>
            simp only [Option.map_some']
            have hlt := tryAlts_length hm
            simp at hlt
            have hr1 : (r.2 ++ b :: v).length ≤ f := by
              simp [List.length_append] at h1 ⊢
              omega
            exact ih r.1 r.2 f₂' f₃ hr1 (by omega) h3
          | none =>
            simp only [Option.map_none']
            rw [List.cons_append]
            congr 1
            exact ih (isWordChar c) t f₂' f₃ ht1 ht2 h3

/-- The lemma `stripGo_split` at canonical fuel. -/
theorem stripSuffL_split {b : Char} {v : List Char} (hbAlt : isAltLetter b = false)
    (hbWord : isWordChar b = false) (hbI : inertTail (b :: v) = true)
    (x : List Char) :
    stripSuffL (x ++ b :: v) = stripSuffL x ++ b :: stripSuffL v :=
  stripGo_split b v hbAlt hbWord hbI (x ++ b :: v).length false x x.length v.length
    (le_refl _) (le_refl _) (le_refl _)

theorem stripGo_spacesPre :
    ∀ sp : List Char, (∀ c ∈ sp, isSpaceChar c = true) →
    ∀ (f f' : Nat) (y : List Char), (sp ++ y).length ≤ f → y.length ≤ f' →
      stripGo f false (sp ++ y) = sp ++ stripGo f' false y := by
  intro sp
  induction sp with
  | nil =>
    intro _ f f' y h1 h2
    exact stripGo_fuel f f' false y (by simpa using h1) h2
  | cons w sp' ih =>
    intro hsp f f' y h1 h2
    have hw : isSpaceChar w = true := hsp w (List.mem_cons_self w sp')
    cases f with
    | zero => simp at h1
    | succ f0 =>
      rw [List.cons_append]
      simp only [stripGo, Bool.false_eq_true, if_false]
      rw [tryAlts_nonletter (space_props hw).1, (space_props hw).2.1]
      rw [List.cons_append]
      show w :: stripGo f0 false (sp' ++ y) = w :: (sp' ++ stripGo f' false y)
      congr 1
      refine ih (fun c hc => hsp c (List.mem_cons_of_mem w hc)) f0 f' y ?_ h2
      simp [List.length_append] at h1 ⊢
      omega

/-- The scan `stripSuffL` passes a whitespace prefix through unchanged. -/
theorem stripSuffL_spaces {sp : List Char} (hsp : ∀ c ∈ sp, isSpaceChar c = true)
    (y : List Char) : stripSuffL (sp ++ y) = sp ++ stripSuffL y :=
  stripGo_spacesPre sp hsp (sp ++ y).length y.length y (le_refl _) (le_refl _)

theorem inert_nil : inertTail ([] : List Char) = true := rfl

theorem inert_space_cons {w : Char} (hw : isSpaceChar w = true) (u : List Char) :
    inertTail (w :: u) = inertTail u := by
  unfold inertTail
  rw [List.dropWhile_cons, if_pos hw]

theorem inert_spaces_append {sp : List Char}
    (hsp : ∀ c ∈ sp, isSpaceChar c = true) (u : List Char) :
    inertTail (sp ++ u) = inertTail u := by
  induction sp with
  | nil => rfl
  | cons w sp' ih =>
    rw [List.cons_append,
      inert_space_cons (hsp w (List.mem_cons_self w sp'))]
    exact ih fun c hc => hsp c (List.mem_cons_of_mem w hc)

theorem inert_barrier_cons {b : Char} (hs : isSpaceChar b = false)
    (hb : (!isAltLetter b && b != '.' && !isWordChar b) = true) (u : List Char) :
    inertTail (b :: u) = true := by
  unfold inertTail
  rw [List.dropWhile_cons, if_neg (by simp [hs])]
  exact hb

theorem anyAlnum_append (x y : List Char) :
    anyAlnum (x ++ y) = (anyAlnum x || anyAlnum y) := by
  unfold anyAlnum
  exact List.any_append

/-- Right-extension by an inert tail preserves the presence of an
alphanumeric survivor of the suffix scan. -/
theorem anyAlnum_append_inert {x tail : List Char} (hT : inertTail tail = true)
    (hA : anyAlnum (stripSuffL x) = true) :
    anyAlnum (stripSuffL (x ++ tail)) = true := by
  cases tail with
  | nil => simpa [List.append_nil] using hA
  | cons b v =>
    have hb : isAltLetter b = false ∧ isWordChar b = false := by
      by_cases hs : isSpaceChar b
      · exact ⟨(space_props hs).1, (space_props hs).2.1⟩
      · exact ⟨(inertTail_props hT).1, (inertTail_props hT).2.1⟩
    rw [stripSuffL_split hb.1 hb.2 hT x, anyAlnum_append]
    rw [hA]
    rfl

/-- Prepending an inert character and arbitrary left context preserves the
presence of an alphanumeric survivor. -/
theorem anyAlnum_prepend_inert {b : Char} {y : List Char}
    (hbAlt : isAltLetter b = false) (hbWord : isWordChar b = false)
    (hbI : inertTail (b :: y) = true) (z : List Char)
    (hA : anyAlnum (stripSuffL y) = true) :
    anyAlnum (stripSuffL (z ++ b :: y)) = true := by
  rw [stripSuffL_split hbAlt hbWord hbI z, anyAlnum_append]
  have : anyAlnum (b :: stripSuffL y) = true := by
    unfold anyAlnum at hA ⊢
    simp only [List.any_cons, hA, Bool.or_true]
  rw [this, Bool.or_true]

/-- Prepending a whitespace run preserves the presence of an alphanumeric
survivor. -/
theorem anyAlnum_spacesPre {sp : List Char}
    (hsp : ∀ c ∈ sp, isSpaceChar c = true) {y : List Char}
    (hA : anyAlnum (stripSuffL y) = true) :
    anyAlnum (stripSuffL (sp ++ y)) = true := by
  rw [stripSuffL_spaces hsp y, anyAlnum_append, hA, Bool.or_true]

/-! ### An alphanumeric survivor of the suffix scan characterizes
non-empty normalization -/

theorem mem_dropWhile_of {p : Char → Bool} {c : Char} (hc : p c = false) :
    ∀ {l : List Char}, c ∈ l → c ∈ l.dropWhile p := by
  intro l
  induction l with
  | nil => intro h; cases h
  | cons a t ih =>
    intro h
    rw [List.dropWhile_cons]
    split
    · rename_i hp
      rcases List.mem_cons.mp h with h1 | h1
      · subst h1
        rw [hc] at hp
        cases hp
      · exact ih h1
    · exact h

theorem mem_trimBoth_of {c : Char} (hc : isSpaceChar c = false) {l : List Char}
    (h : c ∈ l) : c ∈ trimBoth l := by
  unfold trimBoth trimRight trimLeft
  rw [List.mem_reverse]
  apply mem_dropWhile_of hc
  rw [List.mem_reverse]
  exact mem_dropWhile_of hc h

theorem mem_squashGo_of {c : Char} (hc : isSpaceChar c = false) :
    ∀ {l : List Char} (b : Bool), c ∈ l → c ∈ squashGo b l := by
  intro l
  induction l with
  | nil => intro b h; cases h
  | cons a t ih =>
    intro b h
    unfold squashGo
    by_cases ha : isSpaceChar a
    · have hct : c ∈ t := by
        rcases List.mem_cons.mp h with h1 | h1
        · subst h1
          rw [hc] at ha
          cases ha
        · exact h1
      rw [if_pos ha]
      split
      · exact ih true hct
      · exact List.mem_cons_of_mem _ (ih true hct)
    · rw [if_neg ha]
      rcases List.mem_cons.mp h with h1 | h1
      · subst h1
        exact List.mem_cons_self _ _
      · exact List.mem_cons_of_mem _ (ih false h1)

theorem mem_punctL_of {c : Char} (hc : punctKeep c = true) {l : List Char}
    (h : c ∈ l) : c ∈ punctL l := by
  unfold punctL
  have : (if punctKeep c then c else ' ') = c := by rw [if_pos hc]
  rw [← this]
  exact List.mem_map_of_mem _ h

theorem mem_punctL_rev {c : Char} (hne : c ≠ ' ') {l : List Char}
    (h : c ∈ punctL l) : c ∈ l := by
  unfold punctL at h
  rcases List.mem_map.mp h with ⟨x, hx, hfx⟩
  by_cases hk : punctKeep x
  · rw [if_pos hk] at hfx
    rwa [hfx] at hx
  · rw [if_neg hk] at hfx
    exact absurd hfx.symm hne

/-- The output of `collapseL` never starts with whitespace. -/
theorem collapseL_headNotSp (x : List Char) : headNotSp (collapseL x) = true :=
  headNotSp_of_prefixOf (trimRight_prefixOf _) (headNotSp_dropWhile _)

/-- If an alphanumeric character survives the suffix scan of the lowered
string, the normalization is non-empty. -/
theorem normalizeL_ne_nil_of_alnum {x : List Char}
    (h : anyAlnum (stripSuffL (lowerL x)) = true) : normalizeL x ≠ [] := by
  unfold anyAlnum at h
  rw [List.any_eq_true] at h
  obtain ⟨c, hc, hcal⟩ := h
  have hcsp : isSpaceChar c = false := alnum_not_space hcal
  have hkeep : punctKeep c = true := by
    unfold punctKeep
    rw [Bool.or_eq_true] at hcal
    rcases hcal with h1 | h1 <;> simp [h1]
  have h1 : c ∈ punctL (stripSuffL (lowerL x)) := mem_punctL_of hkeep hc
  have h2 : c ∈ normalizeL x := by
    unfold normalizeL collapseL
    exact mem_trimBoth_of hcsp (mem_squashGo_of hcsp false h1)
  exact List.ne_nil_of_mem h2

/-- Conversely, a non-empty normalization exhibits an alphanumeric survivor
of the suffix scan of the lowered string. -/
theorem alnum_of_normalizeL_ne_nil {x : List Char}
    (h : normalizeL x ≠ []) : anyAlnum (stripSuffL (lowerL x)) = true := by
  cases hn : normalizeL x with
  | nil => exact absurd hn h
  | cons c t =>
    have hcm : c ∈ normalizeL x := by
      rw [hn]
      exact List.mem_cons_self c t
    have hhd : headNotSp (normalizeL x) = true := collapseL_headNotSp _
    have hcsp : isSpaceChar c = false := by
      rw [hn] at hhd
      simpa [headNotSp, headIsSpace] using hhd
    have hal : (isLowerAZ c || isDigitC c) = true := by
      rcases mem_normalizeL hcm with h1 | h1 | h1
      · simp [h1]
      · simp [h1]
      · subst h1
        cases hcsp
    have hcp : c ∈ punctL (stripSuffL (lowerL x)) := by
      rcases mem_collapseL hcm with ⟨h1, _⟩ | h1
      · exact h1
      · subst h1
        cases hcsp
    have hcs : c ∈ stripSuffL (lowerL x) := by
      apply mem_punctL_rev ?_ hcp
      intro he
      subst he
      cases hcsp
    unfold anyAlnum
    rw [List.any_eq_true]
    exact ⟨c, hcs, hal⟩

/-! ### Decomposing the raw string around a split part -/

theorem lowerL_append (a b : List Char) : lowerL (a ++ b) = lowerL a ++ lowerL b :=
  List.map_append _ _ _

theorem lowerL_spaces {sp : List Char} (h : ∀ c ∈ sp, isSpaceChar c = true) :
    lowerL sp = sp := by
  induction sp with
  | nil => rfl
  | cons w t ih =>
    show pyLower w :: lowerL t = w :: t
    rw [(space_props (h w (List.mem_cons_self w t))).2.2.2,
      ih fun c hc => h c (List.mem_cons_of_mem w hc)]

theorem trimRight_decomp (y : List Char) :
    ∃ sp, y = trimRight y ++ sp ∧ ∀ c ∈ sp, isSpaceChar c = true := by
  refine ⟨(y.reverse.takeWhile isSpaceChar).reverse, ?_, ?_⟩
  · conv_lhs => rw [← List.reverse_reverse y,
      ← List.takeWhile_append_dropWhile (p := isSpaceChar) (l := y.reverse),
      List.reverse_append]
    rfl
  · intro c hc
    rw [List.mem_reverse] at hc
    exact List.mem_takeWhile_imp hc

/-- Every list is a whitespace prefix, then its `strip`, then a whitespace
suffix. -/
theorem trim_decomp (l : List Char) :
    ∃ sp1 sp2, l = sp1 ++ trimBoth l ++ sp2 ∧
      (∀ c ∈ sp1, isSpaceChar c = true) ∧ (∀ c ∈ sp2, isSpaceChar c = true) := by
  obtain ⟨sp2, h2, hsp2⟩ := trimRight_decomp (trimLeft l)
  refine ⟨l.takeWhile isSpaceChar, sp2, ?_,
    fun c hc => List.mem_takeWhile_imp hc, hsp2⟩
  conv_lhs => rw [← List.takeWhile_append_dropWhile (p := isSpaceChar) (l := l)]
  rw [List.append_assoc]
  exact congrArg (fun z => List.takeWhile isSpaceChar l ++ z) h2

theorem isPrefixL_drop :
    ∀ (sep l : List Char), isPrefixL sep l = true →
      sep ++ l.drop sep.length = l := by
  intro sep
  induction sep with
  | nil =>
    intro l _
    simp
  | cons s ss ih =>
    intro l h
    cases l with
    | nil => cases h
    | cons x t =>
      simp only [isPrefixL, Bool.and_eq_true, beq_iff_eq] at h
      obtain ⟨hs, hp⟩ := h
      subst hs
      simp only [List.length_cons, List.drop_succ_cons, List.cons_append,
        List.cons.injEq, true_and]
      exact ih t hp

theorem splitGo_mem :
    ∀ (fuel : Nat) (sep l acc p : List Char),
      p ∈ splitGo fuel sep l acc →
      ∃ pre post, acc.reverse ++ l = pre ++ p ++ post ∧
        (pre = [] ∨ ∃ pre', pre = pre' ++ sep) ∧
        (post = [] ∨ ∃ post', post = sep ++ post') := by
  intro fuel
  induction fuel with
  | zero =>
    intro sep l acc p hp
    cases l with
    | nil =>
      simp [splitGo] at hp
      subst hp
      exact ⟨[], [], by simp, Or.inl rfl, Or.inl rfl⟩
    | cons c t =>
      simp [splitGo] at hp
      subst hp
      exact ⟨[], [], by simp, Or.inl rfl, Or.inl rfl⟩
  | succ f ih =>
    intro sep l acc p hp
    cases l with
    | nil =>
      simp [splitGo] at hp
      subst hp
      exact ⟨[], [], by simp, Or.inl rfl, Or.inl rfl⟩
    | cons c t =>
      rw [splitGo] at hp
      by_cases hpre : (isPrefixL sep (c :: t) && !sep.isEmpty) = true
      · rw [if_pos hpre] at hp
        have hpre1 : isPrefixL sep (c :: t) = true := by
          rw [Bool.and_eq_true] at hpre
          exact hpre.1
        have hsp : sep ++ (c :: t).drop sep.length = c :: t :=
          isPrefixL_drop sep (c :: t) hpre1
        rcases List.mem_cons.mp hp with h1 | h1
        · subst h1
          exact ⟨[], c :: t, by simp, Or.inl rfl,
            Or.inr ⟨(c :: t).drop sep.length, hsp.symm⟩⟩
        · obtain ⟨pre, post, heq, hpc, hoc⟩ := ih sep _ [] p h1
          simp only [List.reverse_nil, List.nil_append] at heq
          refine ⟨acc.reverse ++ sep ++ pre, post, ?_, ?_, hoc⟩
          · rw [← hsp, heq]
            simp [List.append_assoc]
          · right
            rcases hpc with h2 | ⟨pre', h2⟩
            · subst h2
              exact ⟨acc.reverse, by simp⟩
            · subst h2
              exact ⟨acc.reverse ++ sep ++ pre', by simp [List.append_assoc]⟩
      · rw [if_neg hpre] at hp
        obtain ⟨pre, post, heq, hpc, hoc⟩ := ih sep t (c :: acc) p hp
        refine ⟨pre, post, ?_, hpc, hoc⟩
        rw [show acc.reverse ++ (c :: t) = (c :: acc).reverse ++ t by simp]
        exact heq

/-- A part of `str.split(sep)` sits inside the original string, with the
separator on each interior side. -/
theorem parts_decomp {sep raw p : List Char} (hp : p ∈ splitOnL sep raw) :
    ∃ pre post, raw = pre ++ p ++ post ∧
      (pre = [] ∨ ∃ pre', pre = pre' ++ sep) ∧
      (post = [] ∨ ∃ post', post = sep ++ post') := by
  have h := splitGo_mem raw.length sep raw [] p hp
  simpa using h

/-- If a stripped part of a split keeps an alphanumeric survivor of the
suffix scan, so does the whole raw string: the separators are inert, so the
part's matches and survivors embed into the whole-string scan. -/
theorem anyAlnum_whole_of_part {raw sep p : List Char} (hsep : sep ∈ SEPS)
    (hp : p ∈ splitOnL sep raw)
    (hA : anyAlnum (stripSuffL (lowerL (trimBoth p))) = true) :
    anyAlnum (stripSuffL (lowerL raw)) = true := by
  obtain ⟨pre, post, hraw, hpc, hoc⟩ := parts_decomp hp
  obtain ⟨sp1, sp2, hpd, hsp1, hsp2⟩ := trim_decomp p
  have hLp : lowerL p = sp1 ++ (lowerL (trimBoth p) ++ sp2) := by
    conv_lhs => rw [hpd]
    rw [lowerL_append, lowerL_append, lowerL_spaces hsp1, lowerL_spaces hsp2,
      List.append_assoc]
  have hpost : inertTail (sp2 ++ lowerL post) = true := by
    rw [inert_spaces_append hsp2]
    rcases hoc with h | ⟨post', h⟩
    · subst h
      rfl
    · subst h
      rw [lowerL_append]
      fin_cases hsep
      · rw [show lowerL [';'] = [';'] from by decide, List.cons_append,
          List.nil_append]
        exact inert_barrier_cons (by decide) (by decide) _
      · rw [show lowerL ['|'] = ['|'] from by decide, List.cons_append,
          List.nil_append]
        exact inert_barrier_cons (by decide) (by decide) _
      · rw [show lowerL [' ', '-', ' '] = [' ', '-', ' '] from by decide]
        rw [List.cons_append, inert_space_cons (by decide), List.cons_append]
        exact inert_barrier_cons (by decide) (by decide) _
      · rw [show lowerL [','] = [','] from by decide, List.cons_append,
          List.nil_append]
        exact inert_barrier_cons (by decide) (by decide) _
  have hStep1 : anyAlnum (stripSuffL
      (lowerL (trimBoth p) ++ (sp2 ++ lowerL post))) = true :=
    anyAlnum_append_inert hpost hA
  have hStep2 : anyAlnum (stripSuffL
      (sp1 ++ (lowerL (trimBoth p) ++ (sp2 ++ lowerL post)))) = true :=
    anyAlnum_spacesPre hsp1 hStep1
  have hY : lowerL p ++ lowerL post
      = sp1 ++ (lowerL (trimBoth p) ++ (sp2 ++ lowerL post)) := by
    rw [hLp]
    simp [List.append_assoc]
  subst hraw
  rw [lowerL_append, lowerL_append, List.append_assoc]
  rcases hpc with h | ⟨pre', h⟩
  · subst h
    rw [show lowerL ([] : List Char) = [] from rfl, List.nil_append, hY]
    exact hStep2
  · subst h
    rw [lowerL_append, hY]
    fin_cases hsep
    · rw [show lowerL [';'] = [';'] from by decide, List.append_assoc,
        List.cons_append, List.nil_append]
      exact anyAlnum_prepend_inert (by decide) (by decide)
        (inert_barrier_cons (by decide) (by decide) _) _ hStep2
    · rw [show lowerL ['|'] = ['|'] from by decide, List.append_assoc,
        List.cons_append, List.nil_append]
      exact anyAlnum_prepend_inert (by decide) (by decide)
        (inert_barrier_cons (by decide) (by decide) _) _ hStep2
    · rw [show lowerL [' ', '-', ' '] = [' ', '-', ' '] from by decide]
      have hsh : (lowerL pre' ++ [' ', '-', ' ']) ++
            (sp1 ++ (lowerL (trimBoth p) ++ (sp2 ++ lowerL post)))
          = (lowerL pre' ++ [' ']) ++ ('-' ::
            (' ' :: (sp1 ++ (lowerL (trimBoth p) ++ (sp2 ++ lowerL post))))) := by
        simp [List.append_assoc]
      rw [hsh]
      refine anyAlnum_prepend_inert (by decide) (by decide)
        (inert_barrier_cons (by decide) (by decide) _) _ ?_
      have : (' ' :: (sp1 ++ (lowerL (trimBoth p) ++ (sp2 ++ lowerL post))))
          = (' ' :: sp1) ++ (lowerL (trimBoth p) ++ (sp2 ++ lowerL post)) := rfl
      rw [this]
      refine anyAlnum_spacesPre ?_ hStep1
      intro c hc
      rcases List.mem_cons.mp hc with h1 | h1
      · subst h1
        decide
      · exact hsp1 c h1
    · rw [show lowerL [','] = [','] from by decide, List.append_assoc,
        List.cons_append, List.nil_append]
      exact anyAlnum_prepend_inert (by decide) (by decide)
        (inert_barrier_cons (by decide) (by decide) _) _ hStep2

/-- The empty string is a substring of everything (Python `"" in s`). -/
theorem isSubL_nil (l : List Char) : isSubL [] l = true := by
  cases l <;> rfl

/-- A candidate whose whole-string normalization is empty has no variants:
the whole-string form is filtered out as empty, and every split part also
normalizes to the empty string. -/
theorem extract_variants_nil_of_norm_nil {raw : String}
    (hn : normalize_company raw = "") : extract_variants raw = [] := by
  have hnl : normalizeL raw.data = [] := congrArg String.data hn
  have hno : anyAlnum (stripSuffL (lowerL raw.data)) = false := by
    by_contra h
    rw [Bool.not_eq_false] at h
    exact normalizeL_ne_nil_of_alnum h hnl
  have hpart : ∀ sep ∈ SEPS, ∀ p ∈ splitOnL sep raw.data,
      normalize_company (trimStr ⟨p⟩) = "" := by
    intro sep hs p hp
    by_contra hne
    have h1 : normalizeL (trimBoth p) ≠ [] := by
      intro he
      apply hne
      show (⟨normalizeL (trimBoth p)⟩ : String) = ""
      rw [he]
    have h3 := anyAlnum_whole_of_part hs hp (alnum_of_normalizeL_ne_nil h1)
    rw [h3] at hno
    cases hno
  have hemp : ∀ sep ∈ SEPS, ((splitOnL sep raw.data).map
      (fun part => normalize_company (trimStr ⟨part⟩))).filter
        (fun n => decide (3 ≤ n.length)) = [] := by
    intro sep hs
    rw [List.filter_eq_nil_iff]
    intro n hn'
    rcases List.mem_map.mp hn' with ⟨part, hpart', hpe⟩
    rw [← hpe, hpart sep hs part hpart']
    simp
  have hgen : ∀ (seps : List (List Char)), (∀ s ∈ seps, s ∈ SEPS) →
      ∀ acc : List String, seps.foldl (fun acc sep =>
        if isSubL sep raw.data then
          acc ++ ((splitOnL sep raw.data).map
            (fun part => normalize_company (trimStr ⟨part⟩))).filter
              (fun n => decide (3 ≤ n.length))
        else acc) acc = acc := by
    intro seps
    induction seps with
    | nil => intro _ acc; rfl
    | cons s ss ih =>
      intro hss acc
      rw [List.foldl_cons]
      have hcur : (if isSubL s raw.data then
          acc ++ ((splitOnL s raw.data).map
            (fun part => normalize_company (trimStr ⟨part⟩))).filter
              (fun n => decide (3 ≤ n.length))
          else acc) = acc := by
        split
        · rw [hemp s (hss s (List.mem_cons_self s ss))]
          exact List.append_nil acc
        · rfl
      rw [hcur]
      exact ih (fun t ht => hss t (List.mem_cons_of_mem s ht)) acc
  simp only [extract_variants]
  rw [hgen SEPS (fun s hs => hs) [normalize_company raw], hn]
  rfl

/-! ### Claim C10 — empty-normalization candidates -/

/-- C10: a non-blank candidate whose whole-string normalization is the empty
string is blocked by any registry containing an entry of length at least 8
outside the stop-word set, and the matched token is such an entry: the
candidate has no variants (so the exact pass finds nothing), and the empty
normalized lead is a substring of every registry entry in the substring
pass. -/
theorem is_do_not_contact_empty_norm (company : String) (dnc_set : List String)
    (hnb : isBlankStr company = false) (hn : normalize_company company = "")
    (hex : ∃ e ∈ dnc_set, 8 ≤ e.length ∧ e ∉ STOPWORDS) :
    (is_do_not_contact company dnc_set).1 = true ∧
    (is_do_not_contact company dnc_set).2 ∈ dnc_set ∧
    8 ≤ (is_do_not_contact company dnc_set).2.length ∧
    (is_do_not_contact company dnc_set).2 ∉ STOPWORDS := by
  have hev : extract_variants company = [] := extract_variants_nil_of_norm_nil hn
  unfold is_do_not_contact
  rw [if_neg (by simp [hnb]), hev]
  obtain ⟨e, he, hlen, hstop⟩ := hex
  have hsome : (dnc_set.find? (fun e =>
      decide (8 ≤ e.length) && decide (e ∉ STOPWORDS) &&
      (isSubL e.data (normalize_company company).data ||
       isSubL (normalize_company company).data e.data))).isSome := by
    rw [List.find?_isSome]
    refine ⟨e, he, ?_⟩
    rw [hn, decide_eq_true hlen, decide_eq_true hstop,
      show ("" : String).data = [] from rfl, isSubL_nil e.data, Bool.or_true]
    rfl
  cases hf : dnc_set.find? (fun e =>
      decide (8 ≤ e.length) && decide (e ∉ STOPWORDS) &&
      (isSubL e.data (normalize_company company).data ||
       isSubL (normalize_company company).data e.data)) with
  | none =>
    rw [hf] at hsome
    cases hsome
  | some e0 =>
    have hp := List.find?_some hf
    rw [Bool.and_eq_true, Bool.and_eq_true] at hp
    have hm := List.mem_of_find?_eq_some hf
    simp only [hf]
    exact ⟨rfl, hm, of_decide_eq_true hp.1.1, of_decide_eq_true hp.1.2⟩

/-- Witness for C10 at `"B.V."` (non-blank, normalizes to `""`) against the
registry `{"abcdefgh"}`. -/
theorem is_do_not_contact_empty_norm_witness :
    isBlankStr "B.V." = false ∧ normalize_company "B.V." = "" ∧
    (is_do_not_contact "B.V." ["abcdefgh"]).1 = true :=
  ⟨by decide, by decide,
   (is_do_not_contact_empty_norm "B.V." ["abcdefgh"] (by decide) (by decide)
     ⟨"abcdefgh", by decide, by decide, by decide⟩).1⟩

end Acq
